import Mathlib

/-!
Verification of the CodeRally racing-engine core against its
natural-language specification.  The definitions below are a shallow
embedding of the Python sources under `backend/app/core` and
`backend/app/bot_runtime`: machine floats become real numbers, Python
dictionaries become association lists in insertion order, and Python
exceptions become explicit sum types.  Each section names the source
file and function it embeds.
-/

namespace CodeRally

/-! ## Vector primitives (backend/app/core/physics.py, class Vector2) -/

/-- Embedding of `Vector2`: a 2D vector of real numbers. -/
structure Vec2 where
  x : ℝ
  y : ℝ

/-- Embedding of `Vector2.__add__`. -/
def Vec2.add (v w : Vec2) : Vec2 := ⟨v.x + w.x, v.y + w.y⟩

/-- Embedding of `Vector2.__sub__`. -/
def Vec2.sub (v w : Vec2) : Vec2 := ⟨v.x - w.x, v.y - w.y⟩

/-- Embedding of `Vector2.__mul__` (scalar multiplication). -/
def Vec2.scale (v : Vec2) (c : ℝ) : Vec2 := ⟨v.x * c, v.y * c⟩

/-- Embedding of `Vector2.dot`. -/
def Vec2.dot (v w : Vec2) : ℝ := v.x * w.x + v.y * w.y

/-- Embedding of `Vector2.magnitude`. -/
noncomputable def Vec2.magnitude (v : Vec2) : ℝ := Real.sqrt (v.x ^ 2 + v.y ^ 2)

/-- Embedding of `Vector2.normalize`: the zero vector normalizes to zero. -/
noncomputable def Vec2.normalize (v : Vec2) : Vec2 :=
  if v.magnitude = 0 then ⟨0, 0⟩ else ⟨v.x / v.magnitude, v.y / v.magnitude⟩

theorem Vec2.ext_xy {v w : Vec2} (hx : v.x = w.x) (hy : v.y = w.y) : v = w := by
  cases v; cases w; simp_all

theorem Vec2.magnitude_nonneg (v : Vec2) : 0 ≤ v.magnitude := Real.sqrt_nonneg _

theorem Vec2.magnitude_scale (v : Vec2) (c : ℝ) :
    (v.scale c).magnitude = |c| * v.magnitude := by
  unfold Vec2.magnitude Vec2.scale
  have h : (v.x * c) ^ 2 + (v.y * c) ^ 2 = c ^ 2 * (v.x ^ 2 + v.y ^ 2) := by ring
  rw [h, Real.sqrt_mul (sq_nonneg c), Real.sqrt_sq_eq_abs]

theorem Vec2.magnitude_pos_of_ne_zero {v : Vec2} (h : v.magnitude ≠ 0) :
    0 < v.magnitude := lt_of_le_of_ne (Vec2.magnitude_nonneg v) (Ne.symm h)

theorem Vec2.magnitude_normalize {v : Vec2} (h : v.magnitude ≠ 0) :
    v.normalize.magnitude = 1 := by
  have hpos := Vec2.magnitude_pos_of_ne_zero h
  unfold Vec2.normalize
  rw [if_neg h]
  show Real.sqrt ((v.x / v.magnitude) ^ 2 + (v.y / v.magnitude) ^ 2) = 1
  have hsq : (v.x / v.magnitude) ^ 2 + (v.y / v.magnitude) ^ 2
      = (v.x ^ 2 + v.y ^ 2) / v.magnitude ^ 2 := by ring
  have hmag : v.magnitude ^ 2 = v.x ^ 2 + v.y ^ 2 := by
    unfold Vec2.magnitude
    rw [Real.sq_sqrt]
    positivity
  rw [hsq, hmag, div_self, Real.sqrt_one]
  rw [← hmag]
  positivity

/-! ## Python arithmetic helpers -/

/-- Real-number model of the Python modulo `a % b` for a positive modulus:
`a - b * floor (a / b)`. -/
noncomputable def pythonMod (a b : ℝ) : ℝ := a - b * ⌊a / b⌋

/-- Normalization used by the sources for headings and relative angles:
`(x + pi) % (2 * pi) - pi` (physics.py line 194, bot_manager.py line 293). -/
noncomputable def normalizeAngle (x : ℝ) : ℝ :=
  pythonMod (x + Real.pi) (2 * Real.pi) - Real.pi

theorem pythonMod_nonneg {a b : ℝ} (hb : 0 < b) : 0 ≤ pythonMod a b := by
  unfold pythonMod
  have h := Int.sub_floor_div_mul_nonneg a hb
  linarith [h]

theorem pythonMod_lt {a b : ℝ} (hb : 0 < b) : pythonMod a b < b := by
  unfold pythonMod
  have h := Int.sub_floor_div_mul_lt a hb
  linarith [h]

theorem normalizeAngle_mem (x : ℝ) :
    -Real.pi ≤ normalizeAngle x ∧ normalizeAngle x < Real.pi := by
  have hb : (0 : ℝ) < 2 * Real.pi := by positivity
  constructor
  · have := @pythonMod_nonneg (x + Real.pi) _ hb
    unfold normalizeAngle; linarith
  · have := @pythonMod_lt (x + Real.pi) _ hb
    unfold normalizeAngle; linarith

theorem normalizeAngle_pi : normalizeAngle Real.pi = -Real.pi := by
  unfold normalizeAngle pythonMod
  have hne : (2 : ℝ) * Real.pi ≠ 0 := by positivity
  have h2 : Real.pi + Real.pi = 2 * Real.pi := by ring
  rw [h2, div_self hne]
  simp

/-! ## Configuration constants (backend/app/config.py) -/

def MAX_SPEED : ℝ := 150
def ACCELERATION : ℝ := 80
def BRAKE_FORCE : ℝ := 120
noncomputable def DRAG_COEFFICIENT : ℝ := 1 / 50
def TURN_RATE : ℝ := 3
def MIN_TURN_SPEED : ℝ := 5
noncomputable def DRIFT_THRESHOLD : ℝ := 3 / 5
def DRIFT_RECOVERY_RATE : ℝ := 2
noncomputable def COLLISION_ELASTICITY : ℝ := 7 / 10
def COLLISION_MIN_SPEED : ℝ := 10
def CAR_RADIUS : ℝ := 10
def DEFAULT_NITRO_CHARGES : ℕ := 2
def DEFAULT_NITRO_DURATION_TICKS : ℕ := 120
noncomputable def NITRO_SPEED_MULTIPLIER : ℝ := 3 / 2
def POINTS_BY_POSITION : List ℕ := [25, 18, 15, 12, 10, 8, 6, 4]

/-! ## Car state and physics step (backend/app/core/physics.py)

The `CarState` in `src/backend/app/core/physics.py` predates the nitro
system: the engine (`engine.py`) and the test suite construct it with
`nitro_charges`, `nitro_active` and `nitro_remaining_ticks` fields and
call `simulate_step` with a `use_nitro` argument, but that version of
the physics module is not among the source files.  The nitro fields and
the nitro update below are therefore modelled from the spec; every other
step is embedded from the `physics.py` that is present. -/

/-- Embedding of `CarState`, extended with the three nitro fields which are
modelled from the spec (see section comment). -/
structure CarState where
  position : Vec2
  velocity : Vec2
  heading : ℝ
  angular_velocity : ℝ
  is_drifting : Bool
  drift_angle : ℝ
  nitro_charges : ℕ
  nitro_active : Bool
  nitro_remaining_ticks : ℕ

/-- Embedding of `CarState.get_heading_vector`. -/
noncomputable def CarState.get_heading_vector (s : CarState) : Vec2 :=
  ⟨Real.cos s.heading, Real.sin s.heading⟩

/-- Embedding of `CarState.get_lateral_vector`. -/
noncomputable def CarState.get_lateral_vector (s : CarState) : Vec2 :=
  ⟨Real.sin s.heading, -Real.cos s.heading⟩

/-- Embedding of `CarState.get_speed`. -/
noncomputable def CarState.get_speed (s : CarState) : ℝ := s.velocity.magnitude

/-- Modelled from the spec: the speed cap of step (1),
`MAX_SPEED * (nitro_multiplier if active else 1)`. -/
noncomputable def nitroMaxSpeed (active : Bool) : ℝ :=
  if active then MAX_SPEED * NITRO_SPEED_MULTIPLIER else MAX_SPEED

/-- Embedding of `CarPhysics.apply_acceleration`; the clamp bound
`nitroMaxSpeed` is modelled from the spec (the `physics.py` in the tree
clamps to plain `MAX_SPEED` and predates nitro). -/
noncomputable def apply_acceleration (s : CarState) (dt : ℝ) : CarState :=
  let heading_vec := s.get_heading_vector
  let acceleration := heading_vec.scale (ACCELERATION * dt)
  let new_velocity := s.velocity.add acceleration
  let cap := nitroMaxSpeed s.nitro_active
  let clamped :=
    if new_velocity.magnitude > cap then new_velocity.normalize.scale cap
    else new_velocity
  { s with velocity := clamped }

/-- Embedding of `CarPhysics.apply_braking`. -/
noncomputable def apply_braking (s : CarState) (dt : ℝ) : CarState :=
  if s.velocity.magnitude = 0 then s
  else
    let brake_direction := s.velocity.normalize.scale (-1)
    let brake_force := brake_direction.scale (BRAKE_FORCE * dt)
    let new_velocity := s.velocity.add brake_force
    let final_velocity :=
      if s.velocity.dot new_velocity < 0 then (⟨0, 0⟩ : Vec2) else new_velocity
    { s with velocity := final_velocity }

/-- Embedding of `CarPhysics.apply_turning`. -/
noncomputable def apply_turning (s : CarState) (turn_direction dt : ℝ) : CarState :=
  let speed := s.get_speed
  let speed_factor := if speed < MIN_TURN_SPEED then speed / MIN_TURN_SPEED else 1
  let turn_rate := TURN_RATE * turn_direction * speed_factor
  let new_heading := normalizeAngle (s.heading + turn_rate * dt)
  { s with heading := new_heading, angular_velocity := turn_rate }

/-- Embedding of `CarPhysics.calculate_drift_state`. -/
noncomputable def calculate_drift_state (s : CarState) (grip : ℝ) : Bool × ℝ :=
  if s.get_speed < MIN_TURN_SPEED then (false, 0)
  else
    let heading_vec := s.get_heading_vector
    let lateral_vec := s.get_lateral_vector
    let lateral_velocity := s.velocity.dot lateral_vec
    let forward_velocity := s.velocity.dot heading_vec
    let drift_angle :=
      if |forward_velocity| > 1 / 10 then
        Complex.arg ⟨forward_velocity, lateral_velocity⟩
      else 0
    let lateral_speed := |lateral_velocity|
    let max_lateral_grip := grip * DRIFT_THRESHOLD * s.get_speed
    (decide (lateral_speed > max_lateral_grip), drift_angle)

/-- Embedding of `CarPhysics.apply_grip`. -/
noncomputable def apply_grip (s : CarState) (grip dt : ℝ) : CarState :=
  if s.get_speed < 1 / 10 then s
  else
    let ds := calculate_drift_state s grip
    let heading_vec := s.get_heading_vector
    let lateral_vec := s.get_lateral_vector
    let forward_velocity := s.velocity.dot heading_vec
    let lateral_velocity := s.velocity.dot lateral_vec
    let grip_strength := if ds.1 then grip * (3 / 10) else grip
    let lateral_correction := -lateral_velocity * grip_strength * DRIFT_RECOVERY_RATE * dt
    let new_lateral_velocity := lateral_velocity + lateral_correction
    let new_velocity :=
      (heading_vec.scale forward_velocity).add (lateral_vec.scale new_lateral_velocity)
    { s with velocity := new_velocity, is_drifting := ds.1, drift_angle := ds.2 }

/-- Embedding of `CarPhysics.apply_drag`.  The slow branch of the source
constructs a `CarState` without the drift fields, resetting them to their
defaults. -/
noncomputable def apply_drag (s : CarState) (dt : ℝ) : CarState :=
  let speed := s.get_speed
  if speed < 1 / 10 then
    { s with velocity := ⟨0, 0⟩, is_drifting := false, drift_angle := 0 }
  else
    let drag_magnitude := DRAG_COEFFICIENT * speed * dt
    let drag_force := s.velocity.normalize.scale (-drag_magnitude)
    let new_velocity := s.velocity.add drag_force
    let final_velocity :=
      if s.velocity.dot new_velocity < 0 then (⟨0, 0⟩ : Vec2) else new_velocity
    { s with velocity := final_velocity }

/-- Embedding of `CarPhysics.update_position`. -/
noncomputable def update_position (s : CarState) (dt : ℝ) : CarState :=
  { s with position := s.position.add (s.velocity.scale dt) }

/-- Modelled from the spec: step (6) of the physics step sequence.  If
nitro is requested, charges remain and nitro is not already active,
consume a charge and arm the timer at the configured duration; then, if
nitro is active, decrement the remaining ticks and deactivate when they
reach zero.  The test suite (`test_engine.py`, TestNitroBoost) pins the
sequential reading: the tick that activates nitro also consumes the
first remaining tick. -/
def apply_nitro (s : CarState) (use_nitro : Bool) : CarState :=
  let s1 :=
    if use_nitro ∧ ¬s.nitro_active ∧ 0 < s.nitro_charges then
      { s with nitro_charges := s.nitro_charges - 1,
               nitro_active := true,
               nitro_remaining_ticks := DEFAULT_NITRO_DURATION_TICKS }
    else s
  if s1.nitro_active then
    let r := s1.nitro_remaining_ticks - 1
    if r = 0 then { s1 with nitro_active := false, nitro_remaining_ticks := 0 }
    else { s1 with nitro_remaining_ticks := r }
  else s1

/-- Embedding of `CarPhysics.simulate_step`, with the nitro update of the
spec's step (6) inserted before the position update (the nitro-aware
version called by `engine.py` is not among the source files; see the
section comment). -/
noncomputable def simulate_step (s : CarState) (accelerating braking : Bool)
    (turn_direction dt grip : ℝ) (use_nitro : Bool) : CarState :=
  let s1 := if accelerating then apply_acceleration s dt else s
  let s2 := if braking then apply_braking s1 dt else s1
  let s3 := if turn_direction ≠ 0 then apply_turning s2 turn_direction dt else s2
  let s4 := apply_grip s3 grip dt
  let s5 := apply_drag s4 dt
  let s6 := apply_nitro s5 use_nitro
  update_position s6 dt

/-! ### Nitro bookkeeping lemmas for the physics step -/

/-- The three nitro fields of a car state, as one tuple. -/
def nitroState (s : CarState) : ℕ × Bool × ℕ :=
  (s.nitro_charges, s.nitro_active, s.nitro_remaining_ticks)

theorem nitroState_apply_acceleration (s : CarState) (dt : ℝ) :
    nitroState (apply_acceleration s dt) = nitroState s := rfl

theorem nitroState_apply_braking (s : CarState) (dt : ℝ) :
    nitroState (apply_braking s dt) = nitroState s := by
  unfold apply_braking; split <;> rfl

theorem nitroState_apply_turning (s : CarState) (td dt : ℝ) :
    nitroState (apply_turning s td dt) = nitroState s := rfl

theorem nitroState_apply_grip (s : CarState) (g dt : ℝ) :
    nitroState (apply_grip s g dt) = nitroState s := by
  unfold apply_grip; split <;> rfl

theorem nitroState_apply_drag (s : CarState) (dt : ℝ) :
    nitroState (apply_drag s dt) = nitroState s := by
  unfold apply_drag
  dsimp only
  split <;> rfl

theorem nitroState_update_position (s : CarState) (dt : ℝ) :
    nitroState (update_position s dt) = nitroState s := rfl

theorem nitroState_apply_nitro_congr {s t : CarState}
    (h : nitroState t = nitroState s) (u : Bool) :
    nitroState (apply_nitro t u) = nitroState (apply_nitro s u) := by
  cases s; cases t
  simp only [nitroState, Prod.mk.injEq] at h
  obtain ⟨h1, h2, h3⟩ := h
  subst h1; subst h2; subst h3
  simp only [apply_nitro, nitroState]
  split_ifs <;> rfl

theorem nitroState_simulate_step (s : CarState) (a b : Bool) (td dt g : ℝ) (u : Bool) :
    nitroState (simulate_step s a b td dt g u) = nitroState (apply_nitro s u) := by
  unfold simulate_step
  rw [nitroState_update_position]
  apply nitroState_apply_nitro_congr
  rw [nitroState_apply_drag, nitroState_apply_grip]
  by_cases h3 : td ≠ 0 <;> by_cases h2 : b <;> by_cases h1 : a <;>
    simp [h1, h2, h3, nitroState_apply_turning, nitroState_apply_braking,
      nitroState_apply_acceleration]

theorem apply_nitro_activation {s : CarState} (hna : s.nitro_active = false)
    (hc : 0 < s.nitro_charges) :
    nitroState (apply_nitro s true) = (s.nitro_charges - 1, true, 119) := by
  cases s
  simp_all only [apply_nitro, nitroState]
  norm_num [DEFAULT_NITRO_DURATION_TICKS, hc]

theorem apply_nitro_expire {s : CarState} (hna : s.nitro_active = true)
    (hr : s.nitro_remaining_ticks ≤ 1) (u : Bool) :
    nitroState (apply_nitro s u) = (s.nitro_charges, false, 0) := by
  have h0 : s.nitro_remaining_ticks - 1 = 0 := by omega
  cases s
  simp_all only [apply_nitro, nitroState]
  simp_all

theorem apply_nitro_tick {s : CarState} (hna : s.nitro_active = true)
    (hr : 2 ≤ s.nitro_remaining_ticks) (u : Bool) :
    nitroState (apply_nitro s u)
      = (s.nitro_charges, true, s.nitro_remaining_ticks - 1) := by
  have h0 : s.nitro_remaining_ticks - 1 ≠ 0 := by omega
  cases s
  simp_all only [apply_nitro, nitroState]
  simp_all

theorem apply_nitro_noop {s : CarState} (hna : s.nitro_active = false)
    (h : u = false ∨ s.nitro_charges = 0) :
    apply_nitro s u = s := by
  cases s
  rcases h with h | h <;> simp_all [apply_nitro]

theorem nitroMaxSpeed_pos (active : Bool) : 0 < nitroMaxSpeed active := by
  unfold nitroMaxSpeed MAX_SPEED NITRO_SPEED_MULTIPLIER
  split <;> norm_num

theorem apply_acceleration_speed_le (s : CarState) (dt : ℝ) :
    (apply_acceleration s dt).velocity.magnitude ≤ nitroMaxSpeed s.nitro_active := by
  unfold apply_acceleration
  set nv := s.velocity.add (s.get_heading_vector.scale (ACCELERATION * dt)) with hnv
  have hcap := nitroMaxSpeed_pos s.nitro_active
  by_cases h : nv.magnitude > nitroMaxSpeed s.nitro_active
  · simp only [h, if_pos]
    have hne : nv.magnitude ≠ 0 := by
      intro h0; rw [h0] at h; exact absurd h (not_lt.mpr (le_of_lt hcap))
    rw [Vec2.magnitude_scale, Vec2.magnitude_normalize hne,
      abs_of_pos hcap, mul_one]
  · simp only [h, if_neg, not_false_iff]
    exact not_lt.mp h

/-- C1.  One physics step performs the spec's step-(6) nitro update and the
nitro-aware speed clamp of step (1).  Writing `s'` for the stepped state:
activation (nitro requested, a charge left, not already active) consumes one
charge, arms the timer at the configured duration and — the same step also
ticking the now-active timer — leaves `DEFAULT_NITRO_DURATION_TICKS - 1`
remaining ticks with nitro active; an already active nitro keeps its charges,
ticks its timer down and deactivates when the timer reaches zero; otherwise
the nitro fields are untouched; and the acceleration step clamps speed to
`MAX_SPEED` times the nitro multiplier exactly when nitro is active. -/
theorem simulate_step_nitro_spec (s : CarState) (a b : Bool) (td dt g : ℝ)
    (u : Bool) (hdt : 0 < dt) :
    (u = true ∧ s.nitro_active = false ∧ 0 < s.nitro_charges →
      (simulate_step s a b td dt g u).nitro_charges = s.nitro_charges - 1 ∧
      (simulate_step s a b td dt g u).nitro_active = true ∧
      (simulate_step s a b td dt g u).nitro_remaining_ticks
        = DEFAULT_NITRO_DURATION_TICKS - 1) ∧
    (s.nitro_active = true →
      (simulate_step s a b td dt g u).nitro_charges = s.nitro_charges ∧
      (s.nitro_remaining_ticks ≤ 1 →
        (simulate_step s a b td dt g u).nitro_active = false ∧
        (simulate_step s a b td dt g u).nitro_remaining_ticks = 0) ∧
      (2 ≤ s.nitro_remaining_ticks →
        (simulate_step s a b td dt g u).nitro_active = true ∧
        (simulate_step s a b td dt g u).nitro_remaining_ticks
          = s.nitro_remaining_ticks - 1)) ∧
    (s.nitro_active = false ∧ (u = false ∨ s.nitro_charges = 0) →
      nitroState (simulate_step s a b td dt g u) = nitroState s) ∧
    ((apply_acceleration s dt).velocity.magnitude ≤ nitroMaxSpeed s.nitro_active ∧
      (s.nitro_active = false →
        (apply_acceleration s dt).velocity.magnitude ≤ MAX_SPEED) ∧
      (s.nitro_active = true →
        (apply_acceleration s dt).velocity.magnitude
          ≤ MAX_SPEED * NITRO_SPEED_MULTIPLIER)) := by
  have hns := nitroState_simulate_step s a b td dt g u
  have hch : (simulate_step s a b td dt g u).nitro_charges
      = (apply_nitro s u).nitro_charges := congrArg Prod.fst hns
  have hac : (simulate_step s a b td dt g u).nitro_active
      = (apply_nitro s u).nitro_active := congrArg (fun p => p.2.1) hns
  have hrt : (simulate_step s a b td dt g u).nitro_remaining_ticks
      = (apply_nitro s u).nitro_remaining_ticks := congrArg (fun p => p.2.2) hns
  refine ⟨?_, ?_, ?_, ?_⟩
  · rintro ⟨hu, hna, hc⟩
    subst hu
    have h := apply_nitro_activation hna hc
    have h1 := congrArg Prod.fst h
    have h2 := congrArg (fun p => p.2.1) h
    have h3 := congrArg (fun p => p.2.2) h
    simp only [nitroState] at h1 h2 h3
    rw [hch, hac, hrt, h1, h2, h3]
    norm_num [DEFAULT_NITRO_DURATION_TICKS]
  · intro hna
    refine ⟨?_, ?_, ?_⟩
    · rw [hch]
      by_cases hr : s.nitro_remaining_ticks ≤ 1
      · exact congrArg Prod.fst (apply_nitro_expire hna hr u)
      · exact congrArg Prod.fst (apply_nitro_tick hna (by omega) u)
    · intro hle
      have h := apply_nitro_expire hna hle u
      have h2 := congrArg (fun p => p.2.1) h
      have h3 := congrArg (fun p => p.2.2) h
      simp only [nitroState] at h2 h3
      rw [hac, hrt, h2, h3]
      exact ⟨rfl, rfl⟩
    · intro hge
      have h := apply_nitro_tick hna hge u
      have h2 := congrArg (fun p => p.2.1) h
      have h3 := congrArg (fun p => p.2.2) h
      simp only [nitroState] at h2 h3
      rw [hac, hrt, h2, h3]
      exact ⟨rfl, rfl⟩
  · rintro ⟨hna, hu⟩
    rw [hns, apply_nitro_noop hna hu]
  · refine ⟨apply_acceleration_speed_le s dt, ?_, ?_⟩
    · intro hna
      have h := apply_acceleration_speed_le s dt
      simpa [nitroMaxSpeed, hna] using h
    · intro hna
      have h := apply_acceleration_speed_le s dt
      simpa [nitroMaxSpeed, hna] using h

/-- Witness for `simulate_step_nitro_spec` at a concrete input: a still car
at the origin with two nitro charges, nitro requested, `dt = 1/60`. -/
theorem simulate_step_nitro_spec_witness :
    let s : CarState :=
      { position := ⟨0, 0⟩, velocity := ⟨0, 0⟩, heading := 0,
        angular_velocity := 0, is_drifting := false, drift_angle := 0,
        nitro_charges := 2, nitro_active := false, nitro_remaining_ticks := 0 }
    (true = true ∧ s.nitro_active = false ∧ 0 < s.nitro_charges →
      (simulate_step s true false 0 (1 / 60) 1 true).nitro_charges = s.nitro_charges - 1 ∧
      (simulate_step s true false 0 (1 / 60) 1 true).nitro_active = true ∧
      (simulate_step s true false 0 (1 / 60) 1 true).nitro_remaining_ticks
        = DEFAULT_NITRO_DURATION_TICKS - 1) ∧
    (s.nitro_active = true →
      (simulate_step s true false 0 (1 / 60) 1 true).nitro_charges = s.nitro_charges ∧
      (s.nitro_remaining_ticks ≤ 1 →
        (simulate_step s true false 0 (1 / 60) 1 true).nitro_active = false ∧
        (simulate_step s true false 0 (1 / 60) 1 true).nitro_remaining_ticks = 0) ∧
      (2 ≤ s.nitro_remaining_ticks →
        (simulate_step s true false 0 (1 / 60) 1 true).nitro_active = true ∧
        (simulate_step s true false 0 (1 / 60) 1 true).nitro_remaining_ticks
          = s.nitro_remaining_ticks - 1)) ∧
    (s.nitro_active = false ∧ (true = false ∨ s.nitro_charges = 0) →
      nitroState (simulate_step s true false 0 (1 / 60) 1 true) = nitroState s) ∧
    ((apply_acceleration s (1 / 60)).velocity.magnitude ≤ nitroMaxSpeed s.nitro_active ∧
      (s.nitro_active = false →
        (apply_acceleration s (1 / 60)).velocity.magnitude ≤ MAX_SPEED) ∧
      (s.nitro_active = true →
        (apply_acceleration s (1 / 60)).velocity.magnitude
          ≤ MAX_SPEED * NITRO_SPEED_MULTIPLIER)) :=
  simulate_step_nitro_spec _ true false 0 (1 / 60) 1 true (by norm_num)

/-! ## Bot invocation and error handling
(backend/app/bot_runtime/sandbox.py `BotSandbox.call_on_tick`,
backend/app/core/bot_manager.py `BotManager.get_bot_actions`,
backend/app/core/engine.py `GameEngine._update_bot_inputs`)

A bot's `on_tick` either returns a Python object or raises.  The sandbox
classifies the run by what reaches its handlers: a `dict` return, a
non-`dict` return, a `SandboxSecurityError`, a `SandboxTimeoutError`, or
any other exception.  `BotOutcome` is that classification; a `dict` is
carried as the five booleans `BotActions.from_dict` extracts from it
(absent keys read as `False`). -/

/-- The five action booleans a returned mapping converts to. -/
structure ActionsDict where
  accelerate : Bool
  brake : Bool
  turn_left : Bool
  turn_right : Bool
  use_nitro : Bool
deriving DecidableEq

/-- Classification of one `on_tick` invocation of a bot. -/
inductive BotOutcome
  | returnsDict (d : ActionsDict)
  | returnsNonDict
  | raisesSecurity (msg : String)
  | raisesTimeout (msg : String)
  | raisesOther (msg : String)

/-- A propagating sandbox violation (`SandboxSecurityError` or
`SandboxTimeoutError`). -/
inductive SandboxViolation
  | security (msg : String)
  | timeout (msg : String)

/-- The all-false action dictionary the sandbox substitutes on bad returns
and swallowed errors. -/
def safeActionsDict : ActionsDict := ⟨false, false, false, false, false⟩

/-- Embedding of `BotSandbox.call_on_tick`: a non-dict return and a
non-violation exception both produce the safe default; security and
timeout violations re-raise. -/
def call_on_tick : BotOutcome → Except SandboxViolation ActionsDict
  | .returnsDict d => .ok d
  | .returnsNonDict => .ok safeActionsDict
  | .raisesSecurity m => .error (.security m)
  | .raisesTimeout m => .error (.timeout m)
  | .raisesOther _ => .ok safeActionsDict

/-- Embedding of `BotActions` (bot_runtime/types.py); `from_dict` is the
identity on the extracted booleans. -/
structure BotActions where
  accelerate : Bool
  brake : Bool
  turn_left : Bool
  turn_right : Bool
  use_nitro : Bool
deriving DecidableEq

def BotActions.from_dict (d : ActionsDict) : BotActions :=
  ⟨d.accelerate, d.brake, d.turn_left, d.turn_right, d.use_nitro⟩

/-- Embedding of `BotManager.get_bot_actions`: sandbox violations are
re-raised as `BotError` (modelled as `Except String`), any other
exception yields the default `BotActions()`. -/
def get_bot_actions (o : BotOutcome) : Except String BotActions :=
  match call_on_tick o with
  | .ok d => .ok (BotActions.from_dict d)
  | .error (.security m) => .error ("Bot execution error: " ++ m)
  | .error (.timeout m) => .error ("Bot execution error: " ++ m)

/-- Embedding of `PlayerInput` (engine.py). -/
structure PlayerInput where
  accelerate : Bool
  brake : Bool
  turn_left : Bool
  turn_right : Bool
  nitro : Bool
deriving DecidableEq

/-- The default `PlayerInput()`: all five flags false. -/
def PlayerInput.empty : PlayerInput := ⟨false, false, false, false, false⟩

/-- The slice of `PlayerState` that `_update_bot_inputs` touches. -/
structure BotPlayer where
  is_bot : Bool
  is_finished : Bool
  dnf : Bool
  bot_error : Option String
  input : PlayerInput
deriving DecidableEq

/-- Embedding of the per-player body of `GameEngine._update_bot_inputs`. -/
def update_bot_input (p : BotPlayer) (o : BotOutcome) : BotPlayer :=
  if ¬p.is_bot then p
  else if p.bot_error.isSome ∨ p.is_finished ∨ p.dnf then p
  else
    match get_bot_actions o with
    | .ok a =>
        { p with input := ⟨a.accelerate, a.brake, a.turn_left, a.turn_right, a.use_nitro⟩ }
    | .error m => { p with bot_error := some m, dnf := true, input := PlayerInput.empty }

/-- C2.  For a racing bot player (no prior error, not finished, not DNF):
a non-mapping return or a non-violation exception yields the safe
all-false input and the player keeps racing (no DNF, no recorded error);
a security or timeout violation makes `get_bot_actions` propagate a
`BotError`, upon which the engine records the error, marks the player DNF
and zeroes the input slot. -/
theorem update_bot_input_spec (p : BotPlayer) (o : BotOutcome)
    (hbot : p.is_bot = true) (herr : p.bot_error = none)
    (hfin : p.is_finished = false) (hdnf : p.dnf = false) :
    ((o = .returnsNonDict ∨ ∃ m, o = .raisesOther m) →
      (update_bot_input p o).input = PlayerInput.empty ∧
      (update_bot_input p o).dnf = false ∧
      (update_bot_input p o).bot_error = none) ∧
    (∀ m, o = .raisesSecurity m ∨ o = .raisesTimeout m →
      get_bot_actions o = .error ("Bot execution error: " ++ m) ∧
      (update_bot_input p o).bot_error = some ("Bot execution error: " ++ m) ∧
      (update_bot_input p o).dnf = true ∧
      (update_bot_input p o).input = PlayerInput.empty) := by
  constructor
  · intro ho
    have hrun : ¬(p.bot_error.isSome ∨ p.is_finished ∨ p.dnf) := by
      simp [herr, hfin, hdnf]
    rcases ho with ho | ⟨m, ho⟩ <;> subst ho <;>
      simp [update_bot_input, get_bot_actions, call_on_tick, hbot, hrun,
        BotActions.from_dict, safeActionsDict, PlayerInput.empty, herr, hfin, hdnf]
  · intro m ho
    have hrun : ¬(p.bot_error.isSome ∨ p.is_finished ∨ p.dnf) := by
      simp [herr, hfin, hdnf]
    rcases ho with ho | ho <;> subst ho <;>
      simp [update_bot_input, get_bot_actions, call_on_tick, hbot, hrun,
        PlayerInput.empty]

/-- Witness for `update_bot_input_spec`: a fresh bot player and the
outcome of a bot whose `on_tick` raised a timeout violation. -/
theorem update_bot_input_spec_witness :
    let p : BotPlayer :=
      { is_bot := true, is_finished := false, dnf := false,
        bot_error := none, input := PlayerInput.empty }
    let o : BotOutcome := .raisesTimeout "deadline"
    ((o = .returnsNonDict ∨ ∃ m, o = .raisesOther m) →
      (update_bot_input p o).input = PlayerInput.empty ∧
      (update_bot_input p o).dnf = false ∧
      (update_bot_input p o).bot_error = none) ∧
    (∀ m, o = .raisesSecurity m ∨ o = .raisesTimeout m →
      get_bot_actions o = .error ("Bot execution error: " ++ m) ∧
      (update_bot_input p o).bot_error = some ("Bot execution error: " ++ m) ∧
      (update_bot_input p o).dnf = true ∧
      (update_bot_input p o).input = PlayerInput.empty) :=
  update_bot_input_spec _ _ rfl rfl rfl rfl

/-! ## Fog of war (backend/app/core/bot_manager.py
`BotManager._get_visible_opponents`, backend/app/bot_runtime/types.py
`BotOpponent`) -/

/-- The slice of an opponent `PlayerState` that `_get_visible_opponents`
can read, together with the confidential bot fields (`bot_code`,
`bot_instance`, per-race memory) that it must not leak. -/
structure OppPlayer where
  pid : ℕ
  car_pos : Vec2
  car_vel : Vec2
  heading : ℝ
  bot_code : Option String
  bot_memory : List (String × String)
  bot_instance_id : ℕ

/-- Embedding of `BotOpponent` (types.py): exactly the five exposed
fields. -/
structure BotOpponent where
  position : Vec2
  velocity : Vec2
  heading : ℝ
  distance : ℝ
  relative_angle : ℝ

/-- Embedding of Python `math.atan2 y x` over the reals: the argument of
the complex number `x + y*I`, valued in `(-pi, pi]`. -/
noncomputable def atan2 (y x : ℝ) : ℝ := Complex.arg ⟨x, y⟩

/-- Distance between two positions as the source computes it:
`sqrt (dx*dx + dy*dy)`. -/
noncomputable def planeDist (a c : Vec2) : ℝ :=
  Real.sqrt ((c.x - a.x) * (c.x - a.x) + (c.y - a.y) * (c.y - a.y))

/-- Embedding of the per-opponent body of `_get_visible_opponents`. -/
noncomputable def mkBotOpponent (selfPos : Vec2) (selfHeading : ℝ)
    (o : OppPlayer) : BotOpponent :=
  let dx := o.car_pos.x - selfPos.x
  let dy := o.car_pos.y - selfPos.y
  let distance := Real.sqrt (dx * dx + dy * dy)
  let angle_to_opponent := atan2 dy dx
  let relative_angle := normalizeAngle (angle_to_opponent - selfHeading)
  ⟨o.car_pos, o.car_vel, o.heading, distance, relative_angle⟩

/-- Embedding of `BotManager._get_visible_opponents`: every other player
within the visibility radius, in iteration order. -/
noncomputable def get_visible_opponents (selfPid : ℕ) (selfPos : Vec2)
    (selfHeading : ℝ) (players : List OppPlayer) (radius : ℝ) :
    List BotOpponent :=
  (players.filter fun o =>
      decide (o.pid ≠ selfPid) && decide (planeDist selfPos o.car_pos ≤ radius)).map
    (mkBotOpponent selfPos selfHeading)

/-- C3 counterexample.  The claim says every `relative_angle` is
normalized to `(-pi, pi]`, but the source normalizes with
`(x + pi) % (2*pi) - pi`, whose range is `[-pi, pi)`: an opponent
directly behind a bot heading along the x-axis is reported with
`relative_angle = -pi`, which is outside `(-pi, pi]`. -/
theorem get_visible_opponents_angle_counterexample :
    ∃ o ∈ get_visible_opponents 0 ⟨0, 0⟩ 0
        [{ pid := 1, car_pos := ⟨-100, 0⟩, car_vel := ⟨0, 0⟩, heading := 0,
           bot_code := none, bot_memory := [], bot_instance_id := 0 }] 300,
      ¬(-Real.pi < o.relative_angle ∧ o.relative_angle ≤ Real.pi) := by
  have hdist : planeDist ⟨0, 0⟩ ⟨-100, 0⟩ = 100 := by
    unfold planeDist
    norm_num
    rw [show (10000 : ℝ) = 100 ^ 2 by norm_num, Real.sqrt_sq (by norm_num)]
  have hfilter :
      get_visible_opponents 0 ⟨0, 0⟩ 0
        [{ pid := 1, car_pos := ⟨-100, 0⟩, car_vel := ⟨0, 0⟩, heading := 0,
           bot_code := none, bot_memory := [], bot_instance_id := 0 }] 300
      = [mkBotOpponent ⟨0, 0⟩ 0
          { pid := 1, car_pos := ⟨-100, 0⟩, car_vel := ⟨0, 0⟩, heading := 0,
            bot_code := none, bot_memory := [], bot_instance_id := 0 }] := by
    unfold get_visible_opponents
    rw [List.filter_cons]
    simp [hdist]
    norm_num
  refine ⟨_, by rw [hfilter]; exact List.mem_singleton_self _, ?_⟩
  have hangle : (mkBotOpponent ⟨0, 0⟩ 0
      { pid := 1, car_pos := ⟨-100, 0⟩, car_vel := ⟨0, 0⟩, heading := 0,
        bot_code := none, bot_memory := [], bot_instance_id := 0 }).relative_angle
      = -Real.pi := by
    unfold mkBotOpponent
    have harg : atan2 (0 - (0 : ℝ)) (-100 - 0) = Real.pi := by
      unfold atan2
      have hc : (⟨-100 - 0, 0 - 0⟩ : ℂ) = ((-100 : ℝ) : ℂ) := by
        apply Complex.ext <;> simp
      rw [hc, Complex.arg_ofReal_of_neg (by norm_num)]
    show normalizeAngle (atan2 (0 - (0 : ℝ)) (-100 - 0) - 0) = -Real.pi
    rw [harg, sub_zero, normalizeAngle_pi]
  rw [hangle]
  intro h
  exact absurd h.1 (by simp)

/-- C3 as amended.  Every reported opponent is a genuinely distinct
player within the visibility radius whose exposed data is exactly its
position, velocity, heading, true distance and relative angle; every
distinct player within the radius is reported; the relative angle is
normalized to `[-pi, pi)` (not `(-pi, pi]` as claimed); and the view is
independent of the opponents' bot code, memory and instance identity
(confidentiality: two player lists equal on the public car fields yield
identical opponent views). -/
theorem get_visible_opponents_spec (selfPid : ℕ) (selfPos : Vec2)
    (selfHeading : ℝ) (players : List OppPlayer) (radius : ℝ) :
    (∀ o ∈ get_visible_opponents selfPid selfPos selfHeading players radius,
      o.distance ≤ radius ∧
      -Real.pi ≤ o.relative_angle ∧ o.relative_angle < Real.pi ∧
      ∃ p ∈ players, p.pid ≠ selfPid ∧
        o.position = p.car_pos ∧ o.velocity = p.car_vel ∧
        o.heading = p.heading ∧ o.distance = planeDist selfPos p.car_pos) ∧
    (∀ p ∈ players, p.pid ≠ selfPid → planeDist selfPos p.car_pos ≤ radius →
      mkBotOpponent selfPos selfHeading p
        ∈ get_visible_opponents selfPid selfPos selfHeading players radius) ∧
    (∀ players2 : List OppPlayer,
      players.length = players2.length →
      (∀ i : ℕ, ∀ h1 : i < players.length, ∀ h2 : i < players2.length,
        (players.get ⟨i, h1⟩).pid = (players2.get ⟨i, h2⟩).pid ∧
        (players.get ⟨i, h1⟩).car_pos = (players2.get ⟨i, h2⟩).car_pos ∧
        (players.get ⟨i, h1⟩).car_vel = (players2.get ⟨i, h2⟩).car_vel ∧
        (players.get ⟨i, h1⟩).heading = (players2.get ⟨i, h2⟩).heading) →
      get_visible_opponents selfPid selfPos selfHeading players radius
        = get_visible_opponents selfPid selfPos selfHeading players2 radius) := by
  refine ⟨?_, ?_, ?_⟩
  · intro o ho
    unfold get_visible_opponents at ho
    obtain ⟨p, hp, hmk⟩ := List.mem_map.mp ho
    have hpf := List.mem_filter.mp hp
    have hpid : p.pid ≠ selfPid := by
      have := hpf.2
      simp only [Bool.and_eq_true, decide_eq_true_eq] at this
      exact this.1
    have hrad : planeDist selfPos p.car_pos ≤ radius := by
      have := hpf.2
      simp only [Bool.and_eq_true, decide_eq_true_eq] at this
      exact this.2
    subst hmk
    refine ⟨?_, ?_, ?_, p, hpf.1, hpid, rfl, rfl, rfl, rfl⟩
    · exact hrad
    · exact (normalizeAngle_mem _).1
    · exact (normalizeAngle_mem _).2
  · intro p hp hpid hrad
    unfold get_visible_opponents
    refine List.mem_map.mpr ⟨p, List.mem_filter.mpr ⟨hp, ?_⟩, rfl⟩
    simp [hpid, hrad]
  · intro players2 hlen hfields
    unfold get_visible_opponents
    induction players generalizing players2 with
    | nil =>
        cases players2 with
        | nil => rfl
        | cons q qs => simp at hlen
    | cons p ps ih =>
        cases players2 with
        | nil => simp at hlen
        | cons q qs =>
            have h0 := hfields 0 (by simp) (by simp)
            simp only [List.get] at h0
            obtain ⟨hpid, hpos, hvel, hhead⟩ := h0
            have hlen2 : ps.length = qs.length := by
              simpa using hlen
            have hrest : ∀ i : ℕ, ∀ h1 : i < ps.length, ∀ h2 : i < qs.length,
                (ps.get ⟨i, h1⟩).pid = (qs.get ⟨i, h2⟩).pid ∧
                (ps.get ⟨i, h1⟩).car_pos = (qs.get ⟨i, h2⟩).car_pos ∧
                (ps.get ⟨i, h1⟩).car_vel = (qs.get ⟨i, h2⟩).car_vel ∧
                (ps.get ⟨i, h1⟩).heading = (qs.get ⟨i, h2⟩).heading := by
              intro i h1 h2
              have := hfields (i + 1) (by simpa using Nat.succ_lt_succ h1)
                (by simpa using Nat.succ_lt_succ h2)
              simpa using this
            have htail := ih qs hlen2 hrest
            rw [List.filter_cons, List.filter_cons]
            by_cases hc : (decide (p.pid ≠ selfPid)
                && decide (planeDist selfPos p.car_pos ≤ radius)) = true
            · have hc2 : (decide (q.pid ≠ selfPid)
                  && decide (planeDist selfPos q.car_pos ≤ radius)) = true := by
                rw [← hpid, ← hpos]; exact hc
              rw [if_pos hc, if_pos hc2]
              simp only [List.map_cons]
              rw [htail]
              congr 1
              unfold mkBotOpponent
              rw [hpos, hvel, hhead]
            · have hc2 : ¬(decide (q.pid ≠ selfPid)
                  && decide (planeDist selfPos q.car_pos ≤ radius)) = true := by
                rw [← hpid, ← hpos]; exact hc
              rw [if_neg hc, if_neg hc2]
              exact htail

/-- Witness for `get_visible_opponents_spec` at the spec's fog-of-war
scenario: three cars at `(0,0)`, `(100,0)`, `(400,0)`, radius 300; the
completeness clause is instantiated at the car at `(100,0)`. -/
theorem get_visible_opponents_spec_witness :
    let p1 : OppPlayer :=
      { pid := 1, car_pos := ⟨100, 0⟩, car_vel := ⟨0, 0⟩, heading := 0,
        bot_code := none, bot_memory := [], bot_instance_id := 1 }
    let p2 : OppPlayer :=
      { pid := 2, car_pos := ⟨400, 0⟩, car_vel := ⟨0, 0⟩, heading := 0,
        bot_code := none, bot_memory := [], bot_instance_id := 2 }
    mkBotOpponent ⟨0, 0⟩ 0 p1 ∈ get_visible_opponents 0 ⟨0, 0⟩ 0 [p1, p2] 300 := by
  intro p1 p2
  have hdist : planeDist ⟨0, 0⟩ ⟨100, 0⟩ = 100 := by
    unfold planeDist
    norm_num
    rw [show (10000 : ℝ) = 100 ^ 2 by norm_num, Real.sqrt_sq (by norm_num)]
  exact (get_visible_opponents_spec 0 ⟨0, 0⟩ 0 [p1, p2] 300).2.1 p1
    (List.mem_cons_self _ _) (by norm_num) (by rw [show p1.car_pos = (⟨100, 0⟩ : Vec2) from rfl, hdist]; norm_num)

/-! ## Race ranking and finalization (backend/app/core/engine.py
`_calculate_player_progress`, `_update_race_positions`,
`_finalize_race`, `_update_race_status`) -/

/-- The slice of `PlayerState` read and written by the ranking and
finalization code. -/
structure RPlayer where
  pid : ℕ
  car_pos : Vec2
  is_finished : Bool
  finish_time : Option ℝ
  dnf : Bool
  current_checkpoint : ℕ
  position : Option ℕ
  points : ℕ

/-- Embedding of `GameEngine._calculate_player_progress` on a
non-finished player: `1000 * current_checkpoint` minus the distance to
the next checkpoint, or minus nothing once past the last one.  (For a
finished player the source returns float infinity, but the ranking only
evaluates the progress of non-finished players.) -/
noncomputable def calculate_player_progress (cps : List Vec2) (p : RPlayer) : ℝ :=
  match cps[p.current_checkpoint]? with
  | some cp => 1000 * (p.current_checkpoint : ℝ) - planeDist p.car_pos cp
  | none => 1000 * (p.current_checkpoint : ℝ)

/-- Sort key of the finished block: the finish time (always present
there). -/
noncomputable def ftKey (p : RPlayer) : ℝ := p.finish_time.getD 0

/-- Sort key of the racing block: negated progress (the source sorts by
progress with `reverse=True`). -/
noncomputable def progKey (cps : List Vec2) (p : RPlayer) : ℝ :=
  -(calculate_player_progress cps p)

/-- Boolean comparator for a real-valued sort key. -/
noncomputable def leKey (key : RPlayer → ℝ) (p q : RPlayer) : Bool :=
  decide (key p ≤ key q)

theorem pairwise_mergeSort_leKey (key : RPlayer → ℝ) (l : List RPlayer) :
    (l.mergeSort (leKey key)).Pairwise fun a b => key a ≤ key b := by
  have h := @List.sorted_mergeSort _ (leKey key)
    (fun a b c hab hbc => by
      simp only [leKey, decide_eq_true_eq] at hab hbc ⊢
      linarith)
    (fun a b => by
      simp only [leKey, Bool.or_eq_true, decide_eq_true_eq]
      exact le_total _ _)
    l
  exact h.imp fun hab => by
    simpa only [leKey, decide_eq_true_eq] using hab

theorem sorted_key_index_lt {key : RPlayer → ℝ} {l : List RPlayer}
    (hl : l.Pairwise fun a b => key a ≤ key b) {i j : ℕ}
    (hi : i < l.length) (hj : j < l.length)
    (hk : key (l.get ⟨i, hi⟩) < key (l.get ⟨j, hj⟩)) : i < j := by
  by_contra hij
  rcases Nat.lt_or_ge j i with hji | hji
  · have := (List.pairwise_iff_getElem.mp hl) j i hj hi hji
    simp only [List.get_eq_getElem] at hk
    exact absurd hk (not_lt.mpr this)
  · have : i = j := le_antisymm hji (not_lt.mp hij)
    subst this
    exact lt_irrefl _ hk

theorem mem_enum_map {α β : Type} (f : ℕ × α → β) (l : List α) {x : β} :
    x ∈ l.enum.map f ↔ ∃ i, ∃ hi : i < l.length, x = f (i, l.get ⟨i, hi⟩) := by
  constructor
  · intro hx
    obtain ⟨⟨i, a⟩, hmem, hfa⟩ := List.mem_map.mp hx
    have := List.mem_enum_iff_getElem?.mp hmem
    obtain ⟨hi, hget⟩ := List.getElem?_eq_some_iff.mp this
    refine ⟨i, hi, ?_⟩
    rw [← hfa]
    simp only [List.get_eq_getElem, hget]
  · rintro ⟨i, hi, rfl⟩
    exact List.mem_map.mpr ⟨(i, l.get ⟨i, hi⟩),
      List.mem_enum_iff_getElem?.mpr (by simp), rfl⟩

/-- Enumerated ranking of a key-sorted block assigns strictly increasing
positions to strictly increasing keys. -/
theorem enum_map_key_mono (key : RPlayer → ℝ) (l : List RPlayer)
    (hl : l.Pairwise fun a b => key a ≤ key b)
    (f : ℕ × RPlayer → RPlayer) (base : ℕ)
    (hkey : ∀ i r, key (f (i, r)) = key r)
    (hpos : ∀ i r, (f (i, r)).position = some (base + i + 1))
    {p q : RPlayer} (hp : p ∈ l.enum.map f) (hq : q ∈ l.enum.map f)
    (hlt : key p < key q) :
    ∃ np nq, p.position = some np ∧ q.position = some nq ∧ np < nq := by
  obtain ⟨i, hi, rfl⟩ := (mem_enum_map f l).mp hp
  obtain ⟨j, hj, rfl⟩ := (mem_enum_map f l).mp hq
  rw [hkey, hkey] at hlt
  have hij := sorted_key_index_lt hl hi hj hlt
  exact ⟨base + i + 1, base + j + 1, hpos _ _, hpos _ _, by omega⟩

/-- The `finished_players` selection of `_update_race_positions` and
`_finalize_race`: finished and carrying a finish time. -/
def finsOf (ps : List RPlayer) : List RPlayer :=
  ps.filter fun p => p.is_finished && p.finish_time.isSome

/-- The `racing_players` selection of `_update_race_positions`:
non-finished and non-DNF. -/
def racingOf (ps : List RPlayer) : List RPlayer :=
  ps.filter fun p => !p.is_finished && !p.dnf

/-- The players touched by neither ranking loop of
`_update_race_positions` (they keep their old position unless DNF). -/
def untouchedOf (ps : List RPlayer) : List RPlayer :=
  ps.filter fun p =>
    !(p.is_finished && p.finish_time.isSome) && !(!p.is_finished && !p.dnf)

/-- The finished block of `_update_race_positions`: sorted by ascending
finish time, positions `1..F`. -/
noncomputable def rankedFinished (ps : List RPlayer) : List RPlayer :=
  ((finsOf ps).mergeSort (leKey ftKey)).enum.map fun ip =>
    { ip.2 with position := some (ip.1 + 1) }

/-- The racing block of `_update_race_positions`: sorted by descending
progress, positions from `F+1`. -/
noncomputable def rankedRacing (cps : List Vec2) (ps : List RPlayer) : List RPlayer :=
  ((racingOf ps).mergeSort (leKey (progKey cps))).enum.map fun ip =>
    { ip.2 with position := some ((finsOf ps).length + ip.1 + 1) }

/-- The final loop of `_update_race_positions`: DNF players lose their
position. -/
def dnfClear (p : RPlayer) : RPlayer :=
  if p.dnf then { p with position := none } else p

/-- Embedding of `GameEngine._update_race_positions`.  The source mutates
each `PlayerState` in place; here the updated collection is returned. -/
noncomputable def update_race_positions (cps : List Vec2) (ps : List RPlayer) :
    List RPlayer :=
  (rankedFinished ps ++ rankedRacing cps ps ++ untouchedOf ps).map dnfClear

/-- The finished block of `_finalize_race`: positions `1..F` by ascending
finish time and points from the configured table (zero beyond it). -/
noncomputable def rankedScored (ps : List RPlayer) : List RPlayer :=
  ((finsOf ps).mergeSort (leKey ftKey)).enum.map fun ip =>
    { ip.2 with position := some (ip.1 + 1),
                points := if ip.1 + 1 ≤ POINTS_BY_POSITION.length
                          then POINTS_BY_POSITION.getD ip.1 0 else 0 }

/-- The players `_finalize_race` does not score. -/
def nonScoredOf (ps : List RPlayer) : List RPlayer :=
  ps.filter fun p => !(p.is_finished && p.finish_time.isSome)

/-- The final loop of `_finalize_race`: DNF players end with no position
and zero points. -/
def dnfClearAll (p : RPlayer) : RPlayer :=
  if p.dnf then { p with position := none, points := 0 } else p

/-- Embedding of `GameEngine._finalize_race`. -/
noncomputable def finalize_race (ps : List RPlayer) : List RPlayer :=
  (rankedScored ps ++ nonScoredOf ps).map dnfClearAll

theorem dnfClear_fields (p : RPlayer) :
    (dnfClear p).is_finished = p.is_finished ∧ (dnfClear p).dnf = p.dnf ∧
    (dnfClear p).finish_time = p.finish_time := by
  unfold dnfClear; split <;> exact ⟨rfl, rfl, rfl⟩

theorem dnfClearAll_fields (p : RPlayer) :
    (dnfClearAll p).is_finished = p.is_finished ∧ (dnfClearAll p).dnf = p.dnf ∧
    (dnfClearAll p).finish_time = p.finish_time := by
  unfold dnfClearAll; split <;> exact ⟨rfl, rfl, rfl⟩

theorem mem_rankedFinished {ps : List RPlayer} {x : RPlayer}
    (hx : x ∈ rankedFinished ps) :
    x.is_finished = true ∧ x.finish_time.isSome ∧
    ∃ n, x.position = some n ∧ 1 ≤ n ∧ n ≤ (finsOf ps).length := by
  obtain ⟨i, hi, rfl⟩ := (mem_enum_map _ _).mp hx
  set l := (finsOf ps).mergeSort (leKey ftKey) with hl
  have hmem : l.get ⟨i, hi⟩ ∈ finsOf ps :=
    (List.mergeSort_perm (finsOf ps) (leKey ftKey)).mem_iff.mp (List.get_mem l i hi)
  have hprop := (List.mem_filter.mp hmem).2
  simp only [Bool.and_eq_true] at hprop
  refine ⟨hprop.1, hprop.2, i + 1, rfl, by omega, ?_⟩
  have := @List.length_mergeSort _ (leKey ftKey) (finsOf ps)
  omega

theorem mem_rankedScored {ps : List RPlayer} {x : RPlayer}
    (hx : x ∈ rankedScored ps) :
    x.is_finished = true ∧ x.finish_time.isSome := by
  obtain ⟨i, hi, rfl⟩ := (mem_enum_map _ _).mp hx
  set l := (finsOf ps).mergeSort (leKey ftKey) with hl
  have hmem : l.get ⟨i, hi⟩ ∈ finsOf ps :=
    (List.mergeSort_perm (finsOf ps) (leKey ftKey)).mem_iff.mp (List.get_mem l i hi)
  have hprop := (List.mem_filter.mp hmem).2
  simp only [Bool.and_eq_true] at hprop
  exact ⟨hprop.1, hprop.2⟩

theorem mem_rankedRacing {cps : List Vec2} {ps : List RPlayer} {x : RPlayer}
    (hx : x ∈ rankedRacing cps ps) :
    x.is_finished = false ∧ x.dnf = false ∧
    ∃ n, x.position = some n ∧
      (finsOf ps).length + 1 ≤ n ∧ n ≤ (finsOf ps).length + (racingOf ps).length := by
  obtain ⟨i, hi, rfl⟩ := (mem_enum_map _ _).mp hx
  set l := (racingOf ps).mergeSort (leKey (progKey cps)) with hl
  have hmem : l.get ⟨i, hi⟩ ∈ racingOf ps :=
    (List.mergeSort_perm (racingOf ps) (leKey (progKey cps))).mem_iff.mp
      (List.get_mem l i hi)
  have hprop := (List.mem_filter.mp hmem).2
  simp only [Bool.and_eq_true, Bool.not_eq_true'] at hprop
  refine ⟨hprop.1, hprop.2, (finsOf ps).length + i + 1, rfl, by omega, ?_⟩
  have := @List.length_mergeSort _ (leKey (progKey cps)) (racingOf ps)
  omega

theorem mem_untouchedOf {ps : List RPlayer} {x : RPlayer}
    (hx : x ∈ untouchedOf ps) :
    ¬(x.is_finished = true ∧ x.finish_time.isSome = true) ∧
    ¬(x.is_finished = false ∧ x.dnf = false) := by
  have hprop := (List.mem_filter.mp hx).2
  simp only [Bool.and_eq_true, Bool.not_eq_true', Bool.not_eq_true] at hprop
  constructor
  · intro ⟨h1, h2⟩
    rcases Bool.and_eq_false_iff.mp hprop.1 with h | h <;> simp_all
  · intro ⟨h1, h2⟩
    rcases Bool.and_eq_false_iff.mp hprop.2 with h | h <;> simp_all

theorem mem_nonScoredOf {ps : List RPlayer} {x : RPlayer}
    (hx : x ∈ nonScoredOf ps) :
    ¬(x.is_finished = true ∧ x.finish_time.isSome = true) := by
  have hprop := (List.mem_filter.mp hx).2
  simp only [Bool.not_eq_true'] at hprop
  intro ⟨h1, h2⟩
  rcases Bool.and_eq_false_iff.mp hprop with h | h <;> simp_all

/-- An element of the ranked output that is not DNF came unchanged from
one of the three blocks. -/
theorem mem_blocks_of_mem_update {cps : List Vec2} {ps : List RPlayer}
    {p : RPlayer} (hp : p ∈ update_race_positions cps ps) (hdnf : p.dnf = false) :
    p ∈ rankedFinished ps ++ rankedRacing cps ps ++ untouchedOf ps := by
  obtain ⟨q, hq, hpq⟩ := List.mem_map.mp hp
  have hqd : q.dnf = false := by
    have h := (dnfClear_fields q).2.1
    rw [hpq] at h
    exact h.symm.trans hdnf
  have hfix : dnfClear q = q := by
    unfold dnfClear
    rw [if_neg (by simp [hqd])]
  rw [← hpq, hfix]
  exact hq

theorem mem_blocks_of_mem_finalize {ps : List RPlayer}
    {p : RPlayer} (hp : p ∈ finalize_race ps) (hdnf : p.dnf = false) :
    p ∈ rankedScored ps ++ nonScoredOf ps := by
  obtain ⟨q, hq, hpq⟩ := List.mem_map.mp hp
  have hqd : q.dnf = false := by
    have h := (dnfClearAll_fields q).2.1
    rw [hpq] at h
    exact h.symm.trans hdnf
  have hfix : dnfClearAll q = q := by
    unfold dnfClearAll
    rw [if_neg (by simp [hqd])]
  rw [← hpq, hfix]
  exact hq

theorem finished_in_rankedFinished {cps : List Vec2} {ps : List RPlayer} {p : RPlayer}
    (hp : p ∈ update_race_positions cps ps) (hfin : p.is_finished = true)
    (hft : p.finish_time.isSome = true) (hdnf : p.dnf = false) :
    p ∈ rankedFinished ps := by
  have hb := mem_blocks_of_mem_update hp hdnf
  rcases List.mem_append.mp hb with hb | hb
  · rcases List.mem_append.mp hb with hb | hb
    · exact hb
    · have := (mem_rankedRacing hb).1
      rw [hfin] at this
      exact absurd this (by simp)
  · exact absurd ⟨hfin, hft⟩ (mem_untouchedOf hb).1

theorem racing_in_rankedRacing {cps : List Vec2} {ps : List RPlayer} {p : RPlayer}
    (hp : p ∈ update_race_positions cps ps) (hfin : p.is_finished = false)
    (hdnf : p.dnf = false) :
    p ∈ rankedRacing cps ps := by
  have hb := mem_blocks_of_mem_update hp hdnf
  rcases List.mem_append.mp hb with hb | hb
  · rcases List.mem_append.mp hb with hb | hb
    · have := (mem_rankedFinished hb).1
      rw [hfin] at this
      exact absurd this (by simp)
    · exact hb
  · exact absurd ⟨hfin, hdnf⟩ (mem_untouchedOf hb).2

/-- C5, as amended.  After `_update_race_positions`: finished non-DNF
players (with their finish times) are ordered strictly by ascending
finish time and occupy positions `1..F`; racing (non-finished, non-DNF)
players occupy positions `F+1..F+R` and are ordered strictly by
descending progress metric (`1000 * current_checkpoint` minus the
distance to the next checkpoint, nothing subtracted past the last); DNF
players have no position — the final DNF pass clears the position even
of a player that finished before being marked DNF, which is why the
ordering clauses require both players non-DNF (see
`finalize_race_order_counterexample`).  After `_finalize_race` (the
transition to Finished) any two finished non-DNF players with
`p.finish_time < q.finish_time` satisfy `p.position < q.position`. -/
theorem update_race_positions_spec (cps : List Vec2) (ps : List RPlayer) :
    (∀ p ∈ update_race_positions cps ps, ∀ q ∈ update_race_positions cps ps,
      p.is_finished = true → q.is_finished = true →
      p.dnf = false → q.dnf = false →
      ∀ tp tq, p.finish_time = some tp → q.finish_time = some tq → tp < tq →
      ∃ np nq, p.position = some np ∧ q.position = some nq ∧ np < nq) ∧
    (∀ p ∈ update_race_positions cps ps,
      p.is_finished = true → p.finish_time.isSome = true → p.dnf = false →
      ∃ n, p.position = some n ∧ 1 ≤ n ∧ n ≤ (finsOf ps).length) ∧
    (∀ p ∈ update_race_positions cps ps,
      p.is_finished = false → p.dnf = false →
      ∃ n, p.position = some n ∧ (finsOf ps).length + 1 ≤ n ∧
        n ≤ (finsOf ps).length + (racingOf ps).length) ∧
    (∀ p ∈ update_race_positions cps ps, p.dnf = true → p.position = none) ∧
    (∀ p ∈ update_race_positions cps ps, ∀ q ∈ update_race_positions cps ps,
      p.is_finished = false → q.is_finished = false →
      p.dnf = false → q.dnf = false →
      calculate_player_progress cps q < calculate_player_progress cps p →
      ∃ np nq, p.position = some np ∧ q.position = some nq ∧ np < nq) ∧
    (∀ p ∈ finalize_race ps, ∀ q ∈ finalize_race ps,
      p.is_finished = true → q.is_finished = true →
      p.dnf = false → q.dnf = false →
      ∀ tp tq, p.finish_time = some tp → q.finish_time = some tq → tp < tq →
      ∃ np nq, p.position = some np ∧ q.position = some nq ∧ np < nq) := by
  refine ⟨?_, ?_, ?_, ?_, ?_, ?_⟩
  · intro p hp q hq hpf hqf hpd hqd tp tq hptp hqtq hlt
    have hp2 := finished_in_rankedFinished hp hpf (by simp [hptp]) hpd
    have hq2 := finished_in_rankedFinished hq hqf (by simp [hqtq]) hqd
    unfold rankedFinished at hp2 hq2
    refine enum_map_key_mono ftKey _ (pairwise_mergeSort_leKey ftKey (finsOf ps))
      _ 0 (fun i r => rfl) (fun i r => by simp) hp2 hq2 ?_
    simp only [ftKey, hptp, hqtq, Option.getD_some]
    exact hlt
  · intro p hp hfin hft hdnf
    exact (mem_rankedFinished (finished_in_rankedFinished hp hfin hft hdnf)).2.2
  · intro p hp hfin hdnf
    exact (mem_rankedRacing (racing_in_rankedRacing hp hfin hdnf)).2.2
  · intro p hp hdnf
    obtain ⟨q, hq, hpq⟩ := List.mem_map.mp hp
    have hqd : q.dnf = true := by
      have h := (dnfClear_fields q).2.1
      rw [hpq] at h
      exact h.symm.trans hdnf
    rw [← hpq]
    unfold dnfClear
    rw [if_pos hqd]
  · intro p hp q hq hpf hqf hpd hqd hlt
    have hp2 := racing_in_rankedRacing hp hpf hpd
    have hq2 := racing_in_rankedRacing hq hqf hqd
    unfold rankedRacing at hp2 hq2
    refine enum_map_key_mono (progKey cps) _
      (pairwise_mergeSort_leKey (progKey cps) (racingOf ps))
      _ (finsOf ps).length (fun i r => rfl) (fun i r => by simp) hp2 hq2 ?_
    unfold progKey
    exact neg_lt_neg hlt
  · intro p hp q hq hpf hqf hpd hqd tp tq hptp hqtq hlt
    have hpft : p.finish_time.isSome = true := by simp [hptp]
    have hqft : q.finish_time.isSome = true := by simp [hqtq]
    have hp2 : p ∈ rankedScored ps := by
      rcases List.mem_append.mp (mem_blocks_of_mem_finalize hp hpd) with hb | hb
      · exact hb
      · exact absurd ⟨hpf, hpft⟩ (mem_nonScoredOf hb)
    have hq2 : q ∈ rankedScored ps := by
      rcases List.mem_append.mp (mem_blocks_of_mem_finalize hq hqd) with hb | hb
      · exact hb
      · exact absurd ⟨hqf, hqft⟩ (mem_nonScoredOf hb)
    unfold rankedScored at hp2 hq2
    refine enum_map_key_mono ftKey _ (pairwise_mergeSort_leKey ftKey (finsOf ps))
      _ 0 (fun i r => rfl) (fun i r => by simp) hp2 hq2 ?_
    simp only [ftKey, hptp, hqtq, Option.getD_some]
    exact hlt

/-- Witness for `update_race_positions_spec`: the spec's grace-period
scenario, one player finished at 30 s and one still racing, on a
single-checkpoint track. -/
theorem update_race_positions_spec_witness :
    let pA : RPlayer :=
      { pid := 0, car_pos := ⟨500, 0⟩, is_finished := true,
        finish_time := some 30, dnf := false, current_checkpoint := 2,
        position := none, points := 0 }
    let pB : RPlayer :=
      { pid := 1, car_pos := ⟨100, 0⟩, is_finished := false,
        finish_time := none, dnf := false, current_checkpoint := 1,
        position := none, points := 0 }
    ∀ p ∈ update_race_positions [⟨250, 0⟩] [pA, pB],
      p.is_finished = true → p.finish_time.isSome = true → p.dnf = false →
      ∃ n, p.position = some n ∧ 1 ≤ n ∧ n ≤ (finsOf [pA, pB]).length :=
  (update_race_positions_spec [⟨250, 0⟩] _).2.1

/-- Every player kept by the finished filter reappears (ranked and
scored) in the finished block, with its identifying fields intact. -/
theorem mem_rankedScored_of_mem_fins {ps : List RPlayer} {x : RPlayer}
    (hx : x ∈ finsOf ps) :
    ∃ y ∈ rankedScored ps,
      y.is_finished = x.is_finished ∧ y.finish_time = x.finish_time ∧
      y.dnf = x.dnf := by
  have hx2 : x ∈ (finsOf ps).mergeSort (leKey ftKey) :=
    (List.mergeSort_perm (finsOf ps) (leKey ftKey)).mem_iff.mpr hx
  obtain ⟨⟨i, hi⟩, hget⟩ := List.mem_iff_get.mp hx2
  refine ⟨_, (mem_enum_map _ _).mpr ⟨i, hi, rfl⟩, ?_⟩
  rw [hget]
  exact ⟨rfl, rfl, rfl⟩

/-- Every player kept by the finished filter reappears in the
`_finalize_race` output with its flags and finish time intact; if it is
DNF, the final pass has cleared its position. -/
theorem mem_finalize_fins_member {ps : List RPlayer} {x : RPlayer}
    (hx : x ∈ finsOf ps) :
    ∃ y ∈ finalize_race ps,
      y.is_finished = x.is_finished ∧ y.finish_time = x.finish_time ∧
      (x.dnf = true → y.position = none) := by
  obtain ⟨y, hy, hfin, hft, hd⟩ := mem_rankedScored_of_mem_fins hx
  refine ⟨dnfClearAll y,
    List.mem_map.mpr ⟨y, List.mem_append.mpr (Or.inl hy), rfl⟩, ?_, ?_, ?_⟩
  · rw [(dnfClearAll_fields y).1, hfin]
  · rw [(dnfClearAll_fields y).2.2, hft]
  · intro hxd
    unfold dnfClearAll
    rw [if_pos (hd.trans hxd)]

/-- C5 counterexample.  The claim's ordering clause is unconditional on
DNF, but a player can finish and still be DNF: `_update_bot_inputs`
DNFs a bot mid-race while the tick loop (engine.py lines 289-293) keeps
stepping every non-finished player regardless of `dnf`, so the coasting
car can cross the finish and `_check_finish` (no `dnf` guard) stamps it
finished.  `_finalize_race` then clears that player's position to
`None`, so for such a pair there is no `p.position < q.position`: with
a finished-DNF player at finish time 30 and a finished live player at
40, the claimed ordering fails. -/
theorem finalize_race_order_counterexample :
    let pD : RPlayer :=
      { pid := 0, car_pos := ⟨500, 0⟩, is_finished := true,
        finish_time := some 30, dnf := true, current_checkpoint := 2,
        position := none, points := 0 }
    let qF : RPlayer :=
      { pid := 1, car_pos := ⟨500, 0⟩, is_finished := true,
        finish_time := some 40, dnf := false, current_checkpoint := 2,
        position := none, points := 0 }
    ¬ (∀ p ∈ finalize_race [pD, qF], ∀ q ∈ finalize_race [pD, qF],
        p.is_finished = true → q.is_finished = true →
        ∀ tp tq, p.finish_time = some tp → q.finish_time = some tq →
        tp < tq →
        ∃ np nq, p.position = some np ∧ q.position = some nq ∧ np < nq) := by
  intro pD qF h
  have hpD : pD ∈ finsOf [pD, qF] :=
    List.mem_filter.mpr ⟨List.mem_cons_self _ _, rfl⟩
  have hqF : qF ∈ finsOf [pD, qF] :=
    List.mem_filter.mpr ⟨List.mem_cons_of_mem _ (List.mem_cons_self _ _), rfl⟩
  obtain ⟨p, hp, hpfin, hpft, hppos⟩ := mem_finalize_fins_member hpD
  obtain ⟨q, hq, hqfin, hqft, _⟩ := mem_finalize_fins_member hqF
  obtain ⟨np, nq, hnp, _, _⟩ :=
    h p hp q hq (by rw [hpfin]) (by rw [hqfin]) 30 40
      (by rw [hpft]) (by rw [hqft]) (by norm_num)
  rw [hppos rfl] at hnp
  cases hnp

/-! ## Race status machine (backend/app/core/engine.py
`GameEngine._update_race_status`) -/

/-- Embedding of `RaceStatus`. -/
inductive RaceStatus
  | waiting
  | countdown
  | racing
  | finished
deriving DecidableEq

/-- Embedding of `RaceInfo`. -/
structure MRaceInfo where
  status : RaceStatus
  start_time : Option ℝ
  countdown_remaining : ℝ
  finish_time : Option ℝ
  first_finisher_time : Option ℝ
  grace_period_remaining : ℝ

/-- Embedding of `GameEngine._update_race_status` (the `tick_interval`
and the wall clock `now` are passed in; the source reads them from the
engine and `time.time()`). -/
noncomputable def update_race_status (ri : MRaceInfo) (ps : List RPlayer)
    (tick_interval now : ℝ) : MRaceInfo × List RPlayer :=
  if ri.status = RaceStatus.countdown then
    let c := ri.countdown_remaining - tick_interval
    if c ≤ 0 then
      ({ ri with status := RaceStatus.racing, start_time := some now,
                 countdown_remaining := 0 }, ps)
    else ({ ri with countdown_remaining := c }, ps)
  else if ri.status = RaceStatus.racing then
    if ri.first_finisher_time.isSome then
      let g := ri.grace_period_remaining - tick_interval
      if g ≤ 0 then
        let marked := ps.map fun p =>
          if !p.is_finished then { p with dnf := true } else p
        ({ ri with grace_period_remaining := g, status := RaceStatus.finished },
         finalize_race marked)
      else ({ ri with grace_period_remaining := g }, ps)
    else (ri, ps)
  else (ri, ps)

theorem mem_finalize_not_finished {ps : List RPlayer} {p : RPlayer}
    (hp : p ∈ finalize_race ps) (hfin : p.is_finished = false)
    (hall : ∀ q ∈ ps, q.is_finished = false → q.dnf = true) :
    p.dnf = true ∧ p.position = none ∧ p.points = 0 := by
  obtain ⟨q, hq, hpq⟩ := List.mem_map.mp hp
  have hqfin : q.is_finished = false := by
    have h := (dnfClearAll_fields q).1
    rw [hpq] at h
    exact h.symm.trans hfin
  have hqmem : q ∈ ps := by
    rcases List.mem_append.mp hq with hb | hb
    · have := (mem_rankedScored hb).1
      rw [hqfin] at this
      exact absurd this (by simp)
    · exact (List.mem_filter.mp hb).1
  have hqd : q.dnf = true := hall q hqmem hqfin
  rw [← hpq]
  unfold dnfClearAll
  rw [if_pos hqd]
  exact ⟨hqd, rfl, rfl⟩

/-- C4.  On a Racing tick with `first_finisher_time` set, the grace
period is decremented by the tick interval; once the decremented value is
`≤ 0` the status transitions to Finished with every non-finished player
DNF, position `null` and points 0 (the race having been finalized), and
while it stays positive the session remains Racing.  In particular the
session never stays Racing past an expired grace period. -/
theorem update_race_status_grace_spec (ri : MRaceInfo) (ps : List RPlayer)
    (tick_interval now : ℝ) (hst : ri.status = RaceStatus.racing)
    (hfft : ri.first_finisher_time.isSome = true) :
    (update_race_status ri ps tick_interval now).1.grace_period_remaining
      = ri.grace_period_remaining - tick_interval ∧
    (ri.grace_period_remaining - tick_interval ≤ 0 →
      (update_race_status ri ps tick_interval now).1.status = RaceStatus.finished ∧
      ∀ p ∈ (update_race_status ri ps tick_interval now).2,
        p.is_finished = false →
        p.dnf = true ∧ p.position = none ∧ p.points = 0) ∧
    (0 < ri.grace_period_remaining - tick_interval →
      (update_race_status ri ps tick_interval now).1.status = RaceStatus.racing ∧
      (update_race_status ri ps tick_interval now).2 = ps) := by
  have hnotcd : ¬ri.status = RaceStatus.countdown := by rw [hst]; intro h; cases h
  by_cases hg : ri.grace_period_remaining - tick_interval ≤ 0
  · have heq : update_race_status ri ps tick_interval now
        = ({ ri with grace_period_remaining := ri.grace_period_remaining - tick_interval,
                     status := RaceStatus.finished },
           finalize_race (ps.map fun p =>
             if !p.is_finished then { p with dnf := true } else p)) := by
      unfold update_race_status
      rw [if_neg hnotcd, if_pos hst, if_pos hfft, if_pos hg]
    refine ⟨by rw [heq], fun _ => ⟨by rw [heq], ?_⟩, fun hpos => absurd hg (by linarith)⟩
    intro p hp hfin
    rw [heq] at hp
    refine mem_finalize_not_finished hp hfin ?_
    intro q hq hqfin
    obtain ⟨r, hr, hrq⟩ := List.mem_map.mp hq
    by_cases hrf : r.is_finished = false
    · rw [← hrq, if_pos (by simp [hrf])]
    · rw [← hrq, if_neg (by simp at hrf ⊢; exact hrf)] at hqfin ⊢
      exact absurd hqfin (by simp at hrf ⊢; simp [hrf])
  · have heq : update_race_status ri ps tick_interval now
        = ({ ri with grace_period_remaining := ri.grace_period_remaining - tick_interval }, ps) := by
      unfold update_race_status
      rw [if_neg hnotcd, if_pos hst, if_pos hfft, if_neg hg]
    exact ⟨by rw [heq], fun hle => absurd hle hg, fun _ => ⟨by rw [heq, hst], by rw [heq]⟩⟩

/-- Witness for `update_race_status_grace_spec`: a Racing session whose
first finisher crossed the line and whose grace period has 1 s left,
ticked with a 2 s interval, with one finished and one unfinished player. -/
theorem update_race_status_grace_spec_witness :
    let ri : MRaceInfo :=
      { status := RaceStatus.racing, start_time := some 0,
        countdown_remaining := 0, finish_time := none,
        first_finisher_time := some 30, grace_period_remaining := 1 }
    let pA : RPlayer :=
      { pid := 0, car_pos := ⟨500, 0⟩, is_finished := true,
        finish_time := some 30, dnf := false, current_checkpoint := 2,
        position := none, points := 0 }
    let pB : RPlayer :=
      { pid := 1, car_pos := ⟨100, 0⟩, is_finished := false,
        finish_time := none, dnf := false, current_checkpoint := 1,
        position := none, points := 0 }
    (update_race_status ri [pA, pB] 2 60).1.grace_period_remaining
      = ri.grace_period_remaining - 2 ∧
    (ri.grace_period_remaining - 2 ≤ 0 →
      (update_race_status ri [pA, pB] 2 60).1.status = RaceStatus.finished ∧
      ∀ p ∈ (update_race_status ri [pA, pB] 2 60).2,
        p.is_finished = false →
        p.dnf = true ∧ p.position = none ∧ p.points = 0) ∧
    (0 < ri.grace_period_remaining - 2 →
      (update_race_status ri [pA, pB] 2 60).1.status = RaceStatus.racing ∧
      (update_race_status ri [pA, pB] 2 60).2 = [pA, pB]) :=
  update_race_status_grace_spec _ _ 2 60 rfl rfl

/-! ## Car-to-car collisions (backend/app/core/engine.py
`GameEngine._handle_car_collisions`, per-pair body).  Each named
definition below embeds one `let`-bound line of the source loop. -/

/-- The slice of `PlayerState` the car-collision loop reads and writes. -/
structure ColPlayer where
  pos : Vec2
  vel : Vec2
  weight : ℝ
  is_finished : Bool
  dnf : Bool

/-- Center distance of the pair (`distance` in the source). -/
noncomputable def colDistance (p1 p2 : ColPlayer) : ℝ :=
  Real.sqrt ((p2.pos.x - p1.pos.x) * (p2.pos.x - p1.pos.x)
    + (p2.pos.y - p1.pos.y) * (p2.pos.y - p1.pos.y))

/-- The collision normal from car 1 to car 2 (`normal` in the source; an
arbitrary `(1, 0)` when the centers all but coincide). -/
noncomputable def collisionNormal (p1 p2 : ColPlayer) : Vec2 :=
  if colDistance p1 p2 > 1 / 1000 then
    ⟨(p2.pos.x - p1.pos.x) / colDistance p1 p2,
     (p2.pos.y - p1.pos.y) / colDistance p1 p2⟩
  else ⟨1, 0⟩

/-- Relative velocity along the normal (`velocity_along_normal`). -/
noncomputable def colVan (p1 p2 : ColPlayer) : ℝ :=
  (p1.vel.sub p2.vel).dot (collisionNormal p1 p2)

/-- The weighted elastic impulse magnitude (`impulse_magnitude`):
`j = -(1+e) (v_rel . n) / (1/m1 + 1/m2)`. -/
noncomputable def colJmag (p1 p2 : ColPlayer) : ℝ :=
  -(1 + COLLISION_ELASTICITY) * colVan p1 p2
    / (1 / p1.weight + 1 / p2.weight)

/-- The two post-impulse velocities: updated by `j n / m_i` when the
approach speed exceeds `COLLISION_MIN_SPEED`, untouched otherwise. -/
noncomputable def colNewVels (p1 p2 : ColPlayer) : Vec2 × Vec2 :=
  if colVan p1 p2 > COLLISION_MIN_SPEED then
    (p1.vel.add (((collisionNormal p1 p2).scale (colJmag p1 p2)).scale (1 / p1.weight)),
     p2.vel.sub (((collisionNormal p1 p2).scale (colJmag p1 p2)).scale (1 / p2.weight)))
  else (p1.vel, p2.vel)

/-- Penetration depth (`penetration`). -/
noncomputable def colPenetration (p1 p2 : ColPlayer) : ℝ :=
  2 * CAR_RADIUS - colDistance p1 p2

/-- Separated position of car 1 (pushed back along the normal by the
penetration weighted with the other car's mass share). -/
noncomputable def colNewPos1 (p1 p2 : ColPlayer) : Vec2 :=
  p1.pos.sub ((collisionNormal p1 p2).scale
    (colPenetration p1 p2 * (p2.weight / (p1.weight + p2.weight))))

/-- Separated position of car 2. -/
noncomputable def colNewPos2 (p1 p2 : ColPlayer) : Vec2 :=
  p2.pos.add ((collisionNormal p1 p2).scale
    (colPenetration p1 p2 * (p1.weight / (p1.weight + p2.weight))))

/-- Embedding of the body of the pair loop in
`GameEngine._handle_car_collisions`: skip finished or DNF participants,
detect overlap of the two `CAR_RADIUS` circles, apply the weighted
elastic impulse above the minimum impact speed, always separate. -/
noncomputable def handle_car_collision_pair (p1 p2 : ColPlayer) :
    ColPlayer × ColPlayer :=
  if p1.is_finished ∨ p2.is_finished ∨ p1.dnf ∨ p2.dnf then (p1, p2)
  else if colDistance p1 p2 < 2 * CAR_RADIUS then
    ({ p1 with vel := (colNewVels p1 p2).1, pos := colNewPos1 p1 p2 },
     { p2 with vel := (colNewVels p1 p2).2, pos := colNewPos2 p1 p2 })
  else (p1, p2)

theorem abs_le_sqrt_add_sq (a b : ℝ) : |a| ≤ Real.sqrt (a * a + b * b) := by
  rw [← Real.sqrt_mul_self_eq_abs]
  exact Real.sqrt_le_sqrt (by nlinarith [mul_self_nonneg b])

theorem colDistance_nonneg (p1 p2 : ColPlayer) : 0 ≤ colDistance p1 p2 :=
  Real.sqrt_nonneg _

theorem colDistance_sq (p1 p2 : ColPlayer) :
    colDistance p1 p2 * colDistance p1 p2
      = (p2.pos.x - p1.pos.x) * (p2.pos.x - p1.pos.x)
        + (p2.pos.y - p1.pos.y) * (p2.pos.y - p1.pos.y) := by
  unfold colDistance
  exact Real.mul_self_sqrt
    (by nlinarith [mul_self_nonneg (p2.pos.x - p1.pos.x),
      mul_self_nonneg (p2.pos.y - p1.pos.y)])

/-- After separation the center distance is at least `2 * CAR_RADIUS`
when the normal came from the true direction, and at least
`2 * CAR_RADIUS - 1/500` in the degenerate near-coincident case. -/
theorem col_separation (p1 p2 : ColPlayer)
    (hw1 : 0 < p1.weight) (hw2 : 0 < p2.weight)
    (hdist : colDistance p1 p2 < 2 * CAR_RADIUS) :
    Real.sqrt (((colNewPos2 p1 p2).x - (colNewPos1 p1 p2).x)
        * ((colNewPos2 p1 p2).x - (colNewPos1 p1 p2).x)
      + ((colNewPos2 p1 p2).y - (colNewPos1 p1 p2).y)
        * ((colNewPos2 p1 p2).y - (colNewPos1 p1 p2).y))
      ≥ 2 * CAR_RADIUS - 1 / 500 := by
  set dx := p2.pos.x - p1.pos.x with hdx
  set dy := p2.pos.y - p1.pos.y with hdy
  set d := colDistance p1 p2 with hd
  have hd0 : 0 ≤ d := colDistance_nonneg p1 p2
  have hdsq : d * d = dx * dx + dy * dy := colDistance_sq p1 p2
  have hM : p1.weight + p2.weight ≠ 0 := by positivity
  have hshare : colPenetration p1 p2 * (p2.weight / (p1.weight + p2.weight))
      + colPenetration p1 p2 * (p1.weight / (p1.weight + p2.weight))
      = 2 * CAR_RADIUS - d := by
    unfold colPenetration
    rw [← hd]
    field_simp
    ring
  by_cases hbig : d > 1 / 1000
  · have hdpos : 0 < d := lt_trans (by norm_num) hbig
    have hn : collisionNormal p1 p2 = ⟨dx / d, dy / d⟩ := by
      unfold collisionNormal
      rw [if_pos (by rw [← hd]; exact hbig)]
    have hx : (colNewPos2 p1 p2).x - (colNewPos1 p1 p2).x
        = dx * (2 * CAR_RADIUS) / d := by
      unfold colNewPos2 colNewPos1
      rw [hn]
      simp only [Vec2.add, Vec2.sub, Vec2.scale]
      have expand : p2.pos.x + dx / d * (colPenetration p1 p2 * (p1.weight / (p1.weight + p2.weight)))
          - (p1.pos.x - dx / d * (colPenetration p1 p2 * (p2.weight / (p1.weight + p2.weight))))
          = dx + dx / d * (colPenetration p1 p2 * (p2.weight / (p1.weight + p2.weight))
              + colPenetration p1 p2 * (p1.weight / (p1.weight + p2.weight))) := by
        rw [hdx]; ring
      rw [expand, hshare]
      field_simp
      ring
    have hy : (colNewPos2 p1 p2).y - (colNewPos1 p1 p2).y
        = dy * (2 * CAR_RADIUS) / d := by
      unfold colNewPos2 colNewPos1
      rw [hn]
      simp only [Vec2.add, Vec2.sub, Vec2.scale]
      have expand : p2.pos.y + dy / d * (colPenetration p1 p2 * (p1.weight / (p1.weight + p2.weight)))
          - (p1.pos.y - dy / d * (colPenetration p1 p2 * (p2.weight / (p1.weight + p2.weight))))
          = dy + dy / d * (colPenetration p1 p2 * (p2.weight / (p1.weight + p2.weight))
              + colPenetration p1 p2 * (p1.weight / (p1.weight + p2.weight))) := by
        rw [hdy]; ring
      rw [expand, hshare]
      field_simp
      ring
    rw [hx, hy]
    have hfactor : dx * (2 * CAR_RADIUS) / d * (dx * (2 * CAR_RADIUS) / d)
        + dy * (2 * CAR_RADIUS) / d * (dy * (2 * CAR_RADIUS) / d)
        = (2 * CAR_RADIUS / d) * (2 * CAR_RADIUS / d) * (dx * dx + dy * dy) := by
      ring
    rw [hfactor, ← hdsq]
    have hcpos : 0 ≤ 2 * CAR_RADIUS / d := by
      unfold CAR_RADIUS
      positivity
    have hcollect : 2 * CAR_RADIUS / d * (2 * CAR_RADIUS / d) * (d * d)
        = (2 * CAR_RADIUS / d * d) * (2 * CAR_RADIUS / d * d) := by ring
    rw [hcollect, Real.sqrt_mul_self (by positivity)]
    have : 2 * CAR_RADIUS / d * d = 2 * CAR_RADIUS := by
      field_simp
    rw [this]
    norm_num
  · have hdsmall : d ≤ 1 / 1000 := le_of_not_lt hbig
    have hn : collisionNormal p1 p2 = ⟨1, 0⟩ := by
      unfold collisionNormal
      rw [if_neg (by rw [← hd]; exact hbig)]
    have hx : (colNewPos2 p1 p2).x - (colNewPos1 p1 p2).x
        = dx + (2 * CAR_RADIUS - d) := by
      unfold colNewPos2 colNewPos1
      rw [hn]
      simp only [Vec2.add, Vec2.sub, Vec2.scale]
      have expand : p2.pos.x + 1 * (colPenetration p1 p2 * (p1.weight / (p1.weight + p2.weight)))
          - (p1.pos.x - 1 * (colPenetration p1 p2 * (p2.weight / (p1.weight + p2.weight))))
          = dx + (colPenetration p1 p2 * (p2.weight / (p1.weight + p2.weight))
              + colPenetration p1 p2 * (p1.weight / (p1.weight + p2.weight))) := by
        rw [hdx]; ring
      rw [expand, hshare]
    have hy : (colNewPos2 p1 p2).y - (colNewPos1 p1 p2).y = dy := by
      unfold colNewPos2 colNewPos1
      rw [hn]
      simp only [Vec2.add, Vec2.sub, Vec2.scale]
      rw [hdy]; ring
    rw [hx, hy]
    have habs1 := abs_le_sqrt_add_sq (dx + (2 * CAR_RADIUS - d)) dy
    have habs2 := le_abs_self (dx + (2 * CAR_RADIUS - d))
    have habs3 := abs_le_sqrt_add_sq dx dy
    have habs4 := neg_abs_le dx
    rw [← hdsq, Real.sqrt_mul_self hd0] at habs3
    linarith

/-- C6.  For a non-finished, non-DNF pair with positive masses and center
distance below `2 * CAR_RADIUS`: the weighted elastic impulse
`j = -(1+e) (v_rel . n) / (1/m1 + 1/m2)` updates the two velocities by
`+- j n / m_i` exactly when the approach speed along the normal exceeds
`COLLISION_MIN_SPEED` (otherwise they are untouched); total momentum
`m1 v1 + m2 v2` is conserved in both cases; and the pair is always
separated along the normal inversely to mass, leaving the centers at
distance at least `2 * CAR_RADIUS - 1/500`. -/
theorem handle_car_collision_pair_spec (p1 p2 : ColPlayer)
    (hf1 : p1.is_finished = false) (hf2 : p2.is_finished = false)
    (hd1 : p1.dnf = false) (hd2 : p2.dnf = false)
    (hw1 : 0 < p1.weight) (hw2 : 0 < p2.weight)
    (hdist : colDistance p1 p2 < 2 * CAR_RADIUS) :
    (colVan p1 p2 > COLLISION_MIN_SPEED →
      (handle_car_collision_pair p1 p2).1.vel
        = p1.vel.add (((collisionNormal p1 p2).scale (colJmag p1 p2)).scale
            (1 / p1.weight)) ∧
      (handle_car_collision_pair p1 p2).2.vel
        = p2.vel.sub (((collisionNormal p1 p2).scale (colJmag p1 p2)).scale
            (1 / p2.weight))) ∧
    (colVan p1 p2 ≤ COLLISION_MIN_SPEED →
      (handle_car_collision_pair p1 p2).1.vel = p1.vel ∧
      (handle_car_collision_pair p1 p2).2.vel = p2.vel) ∧
    (((handle_car_collision_pair p1 p2).1.vel.scale p1.weight).add
        ((handle_car_collision_pair p1 p2).2.vel.scale p2.weight)
      = (p1.vel.scale p1.weight).add (p2.vel.scale p2.weight)) ∧
    colDistance (handle_car_collision_pair p1 p2).1
        (handle_car_collision_pair p1 p2).2
      ≥ 2 * CAR_RADIUS - 1 / 500 := by
  have heq : handle_car_collision_pair p1 p2
      = ({ p1 with vel := (colNewVels p1 p2).1, pos := colNewPos1 p1 p2 },
         { p2 with vel := (colNewVels p1 p2).2, pos := colNewPos2 p1 p2 }) := by
    unfold handle_car_collision_pair
    rw [if_neg (by simp [hf1, hf2, hd1, hd2]), if_pos hdist]
  refine ⟨?_, ?_, ?_, ?_⟩
  · intro hgt
    rw [heq]
    show (colNewVels p1 p2).1 = _ ∧ (colNewVels p1 p2).2 = _
    unfold colNewVels
    rw [if_pos hgt]
    exact ⟨rfl, rfl⟩
  · intro hle
    rw [heq]
    show (colNewVels p1 p2).1 = _ ∧ (colNewVels p1 p2).2 = _
    unfold colNewVels
    rw [if_neg (not_lt.mpr hle)]
    exact ⟨rfl, rfl⟩
  · rw [heq]
    show ((colNewVels p1 p2).1.scale p1.weight).add
        ((colNewVels p1 p2).2.scale p2.weight) = _
    unfold colNewVels
    by_cases hgt : colVan p1 p2 > COLLISION_MIN_SPEED
    · rw [if_pos hgt]
      apply Vec2.ext_xy
      all_goals simp only [Vec2.add, Vec2.sub, Vec2.scale]
      all_goals field_simp
      all_goals ring
    · rw [if_neg hgt]
  · rw [heq]
    show Real.sqrt _ ≥ _
    exact col_separation p1 p2 hw1 hw2 hdist

/-- Witness for `handle_car_collision_pair_spec` at the spec's head-on
scenario: equal-mass cars at `(100, 0)` and `(115, 0)` with velocities
`(+50, 0)` and `(-50, 0)`. -/
theorem handle_car_collision_pair_spec_witness :
    let p1 : ColPlayer :=
      { pos := ⟨100, 0⟩, vel := ⟨50, 0⟩, weight := 60,
        is_finished := false, dnf := false }
    let p2 : ColPlayer :=
      { pos := ⟨115, 0⟩, vel := ⟨-50, 0⟩, weight := 60,
        is_finished := false, dnf := false }
    (((handle_car_collision_pair p1 p2).1.vel.scale p1.weight).add
        ((handle_car_collision_pair p1 p2).2.vel.scale p2.weight)
      = (p1.vel.scale p1.weight).add (p2.vel.scale p2.weight)) ∧
    colDistance (handle_car_collision_pair p1 p2).1
        (handle_car_collision_pair p1 p2).2
      ≥ 2 * CAR_RADIUS - 1 / 500 := by
  intro p1 p2
  have hdist : colDistance p1 p2 < 2 * CAR_RADIUS := by
    have : colDistance p1 p2 = 15 := by
      unfold colDistance
      show Real.sqrt ((115 - 100) * (115 - 100) + (0 - 0) * (0 - 0)) = 15
      rw [show ((115 : ℝ) - 100) * (115 - 100) + (0 - 0) * (0 - 0) = 15 * 15 by norm_num]
      exact Real.sqrt_mul_self (by norm_num)
    rw [this]
    norm_num [CAR_RADIUS]
  have h := handle_car_collision_pair_spec p1 p2 rfl rfl rfl rfl
    (by norm_num) (by norm_num) hdist
  exact ⟨h.2.2.1, h.2.2.2⟩

/-! ## Checkpoint crossing (backend/app/core/engine.py
`GameEngine._check_checkpoint_progress`, `_line_segments_intersect`) -/

/-- Embedding of `Checkpoint` (track.py): center position, tangent angle
along the track, width. -/
structure MCheckpoint where
  pos : Vec2
  angle : ℝ
  width : ℝ

/-- Embedding of the `ccw` helper inside `_line_segments_intersect`. -/
noncomputable def ccw (a b c : Vec2) : Bool :=
  decide ((c.y - a.y) * (b.x - a.x) > (b.y - a.y) * (c.x - a.x))

/-- Embedding of `GameEngine._line_segments_intersect`. -/
noncomputable def line_segments_intersect (a b c e : Vec2) : Bool :=
  (ccw a c e != ccw b c e) && (ccw a b c != ccw a b e)

/-- First endpoint of the checkpoint line (perpendicular to the tangent,
half a width out). -/
noncomputable def checkpointLineP1 (cp : MCheckpoint) : Vec2 :=
  ⟨cp.pos.x + Real.cos (cp.angle + Real.pi / 2) * (cp.width / 2),
   cp.pos.y + Real.sin (cp.angle + Real.pi / 2) * (cp.width / 2)⟩

/-- Second endpoint of the checkpoint line. -/
noncomputable def checkpointLineP2 (cp : MCheckpoint) : Vec2 :=
  ⟨cp.pos.x - Real.cos (cp.angle + Real.pi / 2) * (cp.width / 2),
   cp.pos.y - Real.sin (cp.angle + Real.pi / 2) * (cp.width / 2)⟩

/-- The forward test of `_check_checkpoint_progress`: the dot product of
the motion `(curr - prev)` with the checkpoint's tangent direction. -/
noncomputable def crossingDot (cp : MCheckpoint) (prev curr : Vec2) : ℝ :=
  (curr.x - prev.x) * Real.cos cp.angle + (curr.y - prev.y) * Real.sin cp.angle

/-- The slice of `PlayerState` that `_check_checkpoint_progress` reads
and writes.  The source lazily creates `_prev_position` on the first
call; here it is always present. -/
structure CPlayer where
  car_pos : Vec2
  prev_pos : Vec2
  current_checkpoint : ℕ
  checkpoints_passed : Finset ℕ
  split_times : List ℝ

/-- Embedding of `GameEngine._check_checkpoint_progress` for a player
whose `current_checkpoint` is still within the checkpoint list (the
source returns immediately otherwise).  `start_time` and `now` stand for
`race_info.start_time` and `time.time()`; the source appends the split
time only when `start_time` is set. -/
noncomputable def check_checkpoint_progress (cps : List MCheckpoint)
    (start_time : Option ℝ) (now : ℝ) (p : CPlayer) : CPlayer :=
  match cps[p.current_checkpoint]? with
  | none => p
  | some cp =>
    let crossed := line_segments_intersect p.prev_pos p.car_pos
      (checkpointLineP1 cp) (checkpointLineP2 cp)
    let p1 :=
      if crossed && decide (crossingDot cp p.prev_pos p.car_pos > 0) then
        let advanced :=
          { p with checkpoints_passed := insert p.current_checkpoint p.checkpoints_passed,
                   current_checkpoint := p.current_checkpoint + 1 }
        match start_time with
        | some st => { advanced with split_times := advanced.split_times ++ [now - st] }
        | none => advanced
      else p
    { p1 with prev_pos := p.car_pos }

/-- C7.  When the motion segment from the previous to the current
position crosses the next checkpoint's line, the checkpoint counters
advance only if the dot product of the motion with the checkpoint
tangent is positive: a forward crossing increments `current_checkpoint`,
inserts its index in `checkpoints_passed` and (when the race has a start
time) appends the split time, while a reverse crossing (non-positive
dot product) and a non-crossing both leave `current_checkpoint`,
`checkpoints_passed` and `split_times` unchanged. -/
theorem check_checkpoint_progress_spec (cps : List MCheckpoint)
    (start_time : Option ℝ) (now : ℝ) (p : CPlayer) (cp : MCheckpoint)
    (hcp : cps[p.current_checkpoint]? = some cp) :
    (line_segments_intersect p.prev_pos p.car_pos
        (checkpointLineP1 cp) (checkpointLineP2 cp) = true →
      crossingDot cp p.prev_pos p.car_pos ≤ 0 →
      (check_checkpoint_progress cps start_time now p).current_checkpoint
          = p.current_checkpoint ∧
      (check_checkpoint_progress cps start_time now p).checkpoints_passed
          = p.checkpoints_passed ∧
      (check_checkpoint_progress cps start_time now p).split_times
          = p.split_times) ∧
    (line_segments_intersect p.prev_pos p.car_pos
        (checkpointLineP1 cp) (checkpointLineP2 cp) = false →
      (check_checkpoint_progress cps start_time now p).current_checkpoint
          = p.current_checkpoint ∧
      (check_checkpoint_progress cps start_time now p).checkpoints_passed
          = p.checkpoints_passed ∧
      (check_checkpoint_progress cps start_time now p).split_times
          = p.split_times) ∧
    (line_segments_intersect p.prev_pos p.car_pos
        (checkpointLineP1 cp) (checkpointLineP2 cp) = true →
      crossingDot cp p.prev_pos p.car_pos > 0 →
      (check_checkpoint_progress cps start_time now p).current_checkpoint
          = p.current_checkpoint + 1 ∧
      (check_checkpoint_progress cps start_time now p).checkpoints_passed
          = insert p.current_checkpoint p.checkpoints_passed ∧
      (∀ st, start_time = some st →
        (check_checkpoint_progress cps start_time now p).split_times
            = p.split_times ++ [now - st]) ∧
      (start_time = none →
        (check_checkpoint_progress cps start_time now p).split_times
            = p.split_times)) ∧
    (check_checkpoint_progress cps start_time now p).prev_pos = p.car_pos := by
  unfold check_checkpoint_progress
  rw [hcp]
  refine ⟨?_, ?_, ?_, ?_⟩
  · intro hcross hdot
    have hcond : (line_segments_intersect p.prev_pos p.car_pos
        (checkpointLineP1 cp) (checkpointLineP2 cp)
        && decide (crossingDot cp p.prev_pos p.car_pos > 0)) = false := by
      simp [hcross, not_lt.mpr hdot]
    simp only [hcond, Bool.false_eq_true, if_false]
    exact ⟨trivial, trivial, trivial⟩
  · intro hcross
    have hcond : (line_segments_intersect p.prev_pos p.car_pos
        (checkpointLineP1 cp) (checkpointLineP2 cp)
        && decide (crossingDot cp p.prev_pos p.car_pos > 0)) = false := by
      simp [hcross]
    simp only [hcond, Bool.false_eq_true, if_false]
    exact ⟨trivial, trivial, trivial⟩
  · intro hcross hdot
    have hcond : (line_segments_intersect p.prev_pos p.car_pos
        (checkpointLineP1 cp) (checkpointLineP2 cp)
        && decide (crossingDot cp p.prev_pos p.car_pos > 0)) = true := by
      simp [hcross, hdot]
    simp only [hcond, if_true]
    cases start_time with
    | none =>
        refine ⟨rfl, rfl, ?_, fun _ => rfl⟩
        intro st hst
        cases hst
    | some st =>
        refine ⟨rfl, rfl, ?_, ?_⟩
        · intro st2 hst
          cases hst
          rfl
        · intro h
          cases h
  · by_cases hcond : (line_segments_intersect p.prev_pos p.car_pos
        (checkpointLineP1 cp) (checkpointLineP2 cp)
        && decide (crossingDot cp p.prev_pos p.car_pos > 0)) = true
    · simp only [hcond, if_true]
    · simp only [Bool.not_eq_true] at hcond
      simp only [hcond, Bool.false_eq_true, if_false]

/-- Witness for `check_checkpoint_progress_spec` at the spec's
directionality scenario: the checkpoint at `(250, 0)` with tangent `+x`
and width 60, a player moving from `(260, 0)` back to `(240, 0)`. -/
theorem check_checkpoint_progress_spec_witness :
    let cp : MCheckpoint := { pos := ⟨250, 0⟩, angle := 0, width := 60 }
    let p : CPlayer :=
      { car_pos := ⟨240, 0⟩, prev_pos := ⟨260, 0⟩, current_checkpoint := 0,
        checkpoints_passed := ∅, split_times := [] }
    (line_segments_intersect p.prev_pos p.car_pos
        (checkpointLineP1 cp) (checkpointLineP2 cp) = true →
      crossingDot cp p.prev_pos p.car_pos ≤ 0 →
      (check_checkpoint_progress [cp] (some 0) 1 p).current_checkpoint
          = p.current_checkpoint ∧
      (check_checkpoint_progress [cp] (some 0) 1 p).checkpoints_passed
          = p.checkpoints_passed ∧
      (check_checkpoint_progress [cp] (some 0) 1 p).split_times
          = p.split_times) ∧
    (line_segments_intersect p.prev_pos p.car_pos
        (checkpointLineP1 cp) (checkpointLineP2 cp) = false →
      (check_checkpoint_progress [cp] (some 0) 1 p).current_checkpoint
          = p.current_checkpoint ∧
      (check_checkpoint_progress [cp] (some 0) 1 p).checkpoints_passed
          = p.checkpoints_passed ∧
      (check_checkpoint_progress [cp] (some 0) 1 p).split_times
          = p.split_times) ∧
    (line_segments_intersect p.prev_pos p.car_pos
        (checkpointLineP1 cp) (checkpointLineP2 cp) = true →
      crossingDot cp p.prev_pos p.car_pos > 0 →
      (check_checkpoint_progress [cp] (some 0) 1 p).current_checkpoint
          = p.current_checkpoint + 1 ∧
      (check_checkpoint_progress [cp] (some 0) 1 p).checkpoints_passed
          = insert p.current_checkpoint p.checkpoints_passed ∧
      (∀ st, (some (0 : ℝ)) = some st →
        (check_checkpoint_progress [cp] (some 0) 1 p).split_times
            = p.split_times ++ [1 - st]) ∧
      ((some (0 : ℝ)) = none →
        (check_checkpoint_progress [cp] (some 0) 1 p).split_times
            = p.split_times)) ∧
    (check_checkpoint_progress [cp] (some 0) 1 p).prev_pos = p.car_pos :=
  check_checkpoint_progress_spec [_] (some 0) 1 _ _ rfl

/-! ## Checkpoint-progress invariants (backend/app/core/engine.py
`_check_checkpoint_progress` lines 744-775, reset in `start_race`) -/

/-- Embedding of the per-player race-progress reset in
`GameEngine.start_race` (lines 232-234). -/
def reset_player_progress (p : CPlayer) : CPlayer :=
  { p with current_checkpoint := 0, checkpoints_passed := ∅, split_times := [] }

/-- The progress invariant at elapsed race time `tau`: the passed set is
exactly the first `current_checkpoint` indices, the split list has one
entry per passed checkpoint, the splits increase strictly and none lies
in the future. -/
def ProgressInv (p : CPlayer) (tau : ℝ) : Prop :=
  p.checkpoints_passed = Finset.range p.current_checkpoint ∧
  p.split_times.length = p.current_checkpoint ∧
  p.split_times.Chain' (· < ·) ∧
  ∀ t ∈ p.split_times, t ≤ tau

/-- C8.  At every tick of a Racing session and for every player,
`|checkpoints_passed| = current_checkpoint`, `split_times` has length
`current_checkpoint`, and `split_times` is strictly increasing: the
invariant holds after the `start_race` reset, is preserved by the only
step that touches these fields (`_check_checkpoint_progress`, at a
strictly later wall-clock time with the race's start time set), and
entails the three stated equations. -/
theorem checkpoint_progress_invariant :
    (∀ p : CPlayer, ∀ tau : ℝ, ProgressInv (reset_player_progress p) tau) ∧
    (∀ (cps : List MCheckpoint) (s now now2 : ℝ) (p : CPlayer),
      ProgressInv p (now - s) → now < now2 →
      ProgressInv (check_checkpoint_progress cps (some s) now2 p) (now2 - s)) ∧
    (∀ (p : CPlayer) (tau : ℝ), ProgressInv p tau →
      p.checkpoints_passed.card = p.current_checkpoint ∧
      p.split_times.length = p.current_checkpoint ∧
      p.split_times.Pairwise (· < ·)) := by
  refine ⟨?_, ?_, ?_⟩
  · intro p tau
    exact ⟨by simp [reset_player_progress], by simp [reset_player_progress],
      by simp [reset_player_progress], by simp [reset_player_progress]⟩
  · intro cps s now now2 p hinv hlt
    obtain ⟨hset, hlen, hchain, hbound⟩ := hinv
    have hbound2 : ∀ t ∈ p.split_times, t ≤ now2 - s := by
      intro t ht
      have := hbound t ht
      linarith
    unfold check_checkpoint_progress
    cases hcp : cps[p.current_checkpoint]? with
    | none => exact ⟨hset, hlen, hchain, hbound2⟩
    | some cp =>
        by_cases hcond : (line_segments_intersect p.prev_pos p.car_pos
            (checkpointLineP1 cp) (checkpointLineP2 cp)
            && decide (crossingDot cp p.prev_pos p.car_pos > 0)) = true
        · simp only [hcond, if_true]
          refine ⟨?_, ?_, ?_, ?_⟩
          · show insert p.current_checkpoint p.checkpoints_passed
                = Finset.range (p.current_checkpoint + 1)
            rw [hset, Finset.range_succ]
          · show (p.split_times ++ [now2 - s]).length = p.current_checkpoint + 1
            simp [hlen]
          · show (p.split_times ++ [now2 - s]).Chain' (· < ·)
            rw [List.chain'_append]
            refine ⟨hchain, List.chain'_singleton _, ?_⟩
            intro x hx y hy
            have hxmem : x ∈ p.split_times := List.mem_of_mem_getLast? hx
            have hxb := hbound x hxmem
            simp only [List.head?_cons, Option.mem_def, Option.some.injEq] at hy
            subst hy
            linarith
          · show ∀ t ∈ p.split_times ++ [now2 - s], t ≤ now2 - s
            intro t ht
            rcases List.mem_append.mp ht with ht | ht
            · exact hbound2 t ht
            · simp only [List.mem_singleton] at ht
              subst ht
              exact le_refl _
        · simp only [Bool.not_eq_true] at hcond
          simp only [hcond, Bool.false_eq_true, if_false]
          exact ⟨hset, hlen, hchain, hbound2⟩
  · intro p tau hinv
    obtain ⟨hset, hlen, hchain, _⟩ := hinv
    refine ⟨?_, hlen, ?_⟩
    · rw [hset, Finset.card_range]
    · exact List.chain'_iff_pairwise.mp hchain

/-- Witness for `checkpoint_progress_invariant`: the preservation clause
applied to a freshly reset player, a forward crossing of the checkpoint
at `(250, 0)` between wall times 1 and 2 with start time 0. -/
theorem checkpoint_progress_invariant_witness :
    let p : CPlayer :=
      { car_pos := ⟨260, 0⟩, prev_pos := ⟨240, 0⟩, current_checkpoint := 0,
        checkpoints_passed := ∅, split_times := [] }
    ProgressInv (check_checkpoint_progress
      [{ pos := ⟨250, 0⟩, angle := 0, width := 60 }] (some 0) 2 p) (2 - 0) := by
  intro p
  have hinv : ProgressInv p (1 - 0) := by
    refine ⟨by simp, by simp, by simp, by simp⟩
  exact checkpoint_progress_invariant.2.1
    [{ pos := ⟨250, 0⟩, angle := 0, width := 60 }] 0 1 2 p hinv (by norm_num)

/-! ## Lobby membership (backend/app/core/lobby.py `Lobby.transfer_host`,
backend/app/core/lobby_manager.py `LobbyManager.leave_lobby`,
`LobbyManager._cleanup_lobby`).  Player ids and join codes are modelled
as naturals; `members` keeps the Python dict's insertion order. -/

/-- Embedding of `LobbyStatus`. -/
inductive MLobbyStatus
  | waiting
  | starting
  | racing
  | finished
  | disbanded
deriving DecidableEq

/-- The slice of `Lobby` that `leave_lobby` touches. -/
structure MLobby where
  join_code : ℕ
  host_player_id : ℕ
  members : List ℕ
  status : MLobbyStatus
deriving DecidableEq

/-- The slice of `LobbyManager`: the lobby registry and the join-code
index. -/
structure LobbyRegistry where
  lobbies : List (ℕ × MLobby)
  join_codes : List (ℕ × ℕ)
deriving DecidableEq

/-- Embedding of `Lobby.transfer_host`: promote the first remaining
member in insertion order. -/
def transfer_host (l : MLobby) : MLobby :=
  match l.members with
  | [] => l
  | m :: _ => { l with host_player_id := m }

/-- In-place mutation of a stored lobby, as an association-list update. -/
def set_lobby (reg : LobbyRegistry) (lobby_id : ℕ) (l : MLobby) : LobbyRegistry :=
  { reg with lobbies := reg.lobbies.map fun kv =>
      if kv.1 = lobby_id then (lobby_id, l) else kv }

/-- Embedding of `LobbyManager._cleanup_lobby`: drop the lobby from the
registry and its join code from the index. -/
def cleanup_lobby (reg : LobbyRegistry) (lobby_id : ℕ) : LobbyRegistry :=
  match reg.lobbies.lookup lobby_id with
  | none => reg
  | some l =>
      { lobbies := reg.lobbies.filter fun kv => decide (kv.1 ≠ lobby_id),
        join_codes := reg.join_codes.filter fun kv => decide (kv.1 ≠ l.join_code) }

/-- Embedding of `LobbyManager.leave_lobby`: remove the member; a leaving
host is replaced by the first remaining member, and a lobby left empty is
marked Disbanded and cleaned up. -/
def leave_lobby (reg : LobbyRegistry) (lobby_id player_id : ℕ) :
    LobbyRegistry × Bool :=
  match reg.lobbies.lookup lobby_id with
  | none => (reg, false)
  | some l =>
    if player_id ∈ l.members then
      let l1 := { l with members := l.members.erase player_id }
      if l.host_player_id = player_id then
        match l1.members with
        | [] =>
            (cleanup_lobby
              (set_lobby reg lobby_id { l1 with status := MLobbyStatus.disbanded })
              lobby_id, true)
        | _ :: _ => (set_lobby reg lobby_id (transfer_host l1), true)
      else (set_lobby reg lobby_id l1, true)
    else (reg, false)

theorem lookup_map_set (lobby_id : ℕ) (l2 : MLobby) :
    ∀ l : List (ℕ × MLobby), (l.lookup lobby_id).isSome →
      (l.map fun kv => if kv.1 = lobby_id then (lobby_id, l2) else kv).lookup
        lobby_id = some l2
  | [], h => by simp [List.lookup] at h
  | kv :: rest, h => by
      show List.lookup lobby_id
          ((if kv.1 = lobby_id then (lobby_id, l2) else kv)
            :: (rest.map fun kv => if kv.1 = lobby_id then (lobby_id, l2) else kv))
        = some l2
      by_cases hk : kv.1 = lobby_id
      · rw [if_pos hk]
        simp [List.lookup]
      · rw [if_neg hk]
        have hne : (lobby_id == kv.1) = false :=
          beq_eq_false_iff_ne.mpr (Ne.symm hk)
        have hrest : (rest.lookup lobby_id).isSome := by
          simpa [List.lookup, hne] using h
        simp only [List.lookup, hne]
        exact lookup_map_set lobby_id l2 rest hrest

theorem lookup_set_lobby (reg : LobbyRegistry) (lobby_id : ℕ) (l2 : MLobby)
    (h : (reg.lobbies.lookup lobby_id).isSome) :
    (set_lobby reg lobby_id l2).lobbies.lookup lobby_id = some l2 :=
  lookup_map_set lobby_id l2 reg.lobbies h

theorem lookup_filter_ne {β : Type} (k : ℕ) :
    ∀ l : List (ℕ × β),
      (l.filter fun kv => decide (kv.1 ≠ k)).lookup k = none
  | [] => rfl
  | kv :: rest => by
      by_cases hk : kv.1 = k
      · rw [List.filter_cons, if_neg (by simp [hk])]
        exact lookup_filter_ne k rest
      · rw [List.filter_cons, if_pos (by simp [hk])]
        have hne : (k == kv.1) = false :=
          beq_eq_false_iff_ne.mpr (Ne.symm hk)
        simp only [List.lookup, hne]
        exact lookup_filter_ne k rest

/-- C9.  `leave_lobby` on a present member succeeds and removes exactly
that member; when the leaving member is the host and members remain, the
first remaining member in insertion order becomes host; when none
remain, the lobby is removed from the registry together with its
join-code mapping (after being marked Disbanded); and a non-host leave
keeps the host.  In particular successive leaves of `h`, `a`, `b` from
members `[h, a, b]` with host `h` behave as stated (see the witness). -/
theorem leave_lobby_spec (reg : LobbyRegistry) (lobby_id player_id : ℕ)
    (l : MLobby) (hl : reg.lobbies.lookup lobby_id = some l)
    (hmem : player_id ∈ l.members) (hnodup : l.members.Nodup) :
    (leave_lobby reg lobby_id player_id).2 = true ∧
    (l.host_player_id = player_id →
      ∀ m rest, l.members.erase player_id = m :: rest →
        (leave_lobby reg lobby_id player_id).1.lobbies.lookup lobby_id
          = some { l with host_player_id := m, members := m :: rest } ∧
        player_id ∉ (m :: rest)) ∧
    (l.host_player_id = player_id → l.members.erase player_id = [] →
      (leave_lobby reg lobby_id player_id).1.lobbies.lookup lobby_id = none ∧
      (leave_lobby reg lobby_id player_id).1.join_codes.lookup l.join_code
        = none) ∧
    (l.host_player_id ≠ player_id →
      (leave_lobby reg lobby_id player_id).1.lobbies.lookup lobby_id
        = some { l with members := l.members.erase player_id } ∧
      player_id ∉ l.members.erase player_id) := by
  have hnotmem : player_id ∉ l.members.erase player_id := by
    intro hin
    have := (hnodup.mem_erase_iff).mp hin
    exact this.1 rfl
  have hsome : (reg.lobbies.lookup lobby_id).isSome = true := by
    rw [hl]; rfl
  refine ⟨?_, ?_, ?_, ?_⟩
  · unfold leave_lobby
    rw [hl]
    by_cases hhost : l.host_player_id = player_id
    · cases herase : l.members.erase player_id with
      | nil => simp [hmem, hhost, herase]
      | cons m rest => simp [hmem, hhost, herase]
    · simp [hmem, hhost]
  · intro hhost m rest herase
    have hres : (leave_lobby reg lobby_id player_id).1
        = set_lobby reg lobby_id (transfer_host
            { l with members := l.members.erase player_id }) := by
      unfold leave_lobby
      rw [hl]
      simp only [if_pos hmem, if_pos hhost, herase]
    constructor
    · rw [hres, lookup_set_lobby _ _ _ hsome]
      unfold transfer_host
      simp only [herase]
    · rw [← herase]
      exact hnotmem
  · intro hhost herase
    have hres : (leave_lobby reg lobby_id player_id).1
        = cleanup_lobby (set_lobby reg lobby_id
            { l with members := l.members.erase player_id,
                     status := MLobbyStatus.disbanded }) lobby_id := by
      unfold leave_lobby
      rw [hl]
      simp only [if_pos hmem, if_pos hhost, herase]
    have hlook2 := lookup_set_lobby reg lobby_id
      { l with members := l.members.erase player_id,
               status := MLobbyStatus.disbanded } hsome
    rw [hres]
    unfold cleanup_lobby
    rw [hlook2]
    exact ⟨lookup_filter_ne _ _, lookup_filter_ne _ _⟩
  · intro hhost
    unfold leave_lobby
    rw [hl]
    simp only [if_pos hmem, if_neg hhost]
    exact ⟨lookup_set_lobby _ _ _ hsome, hnotmem⟩

/-- Witness for `leave_lobby_spec`: the spec's host-transfer chain.  A
lobby with members `[0, 1, 2]` and host 0: after 0 leaves, 1 is host
with members `[1, 2]`; after 1 then leaves, 2 is host with members
`[2]`; after 2 leaves, the lobby and its join code are gone from the
registry. -/
theorem leave_lobby_spec_witness :
    let l0 : MLobby :=
      { join_code := 7, host_player_id := 0, members := [0, 1, 2],
        status := MLobbyStatus.waiting }
    let reg0 : LobbyRegistry := { lobbies := [(5, l0)], join_codes := [(7, 5)] }
    let reg1 := (leave_lobby reg0 5 0).1
    let l1 : MLobby :=
      { join_code := 7, host_player_id := 1, members := [1, 2],
        status := MLobbyStatus.waiting }
    let reg2 := (leave_lobby reg1 5 1).1
    let l2 : MLobby :=
      { join_code := 7, host_player_id := 2, members := [2],
        status := MLobbyStatus.waiting }
    let reg3 := (leave_lobby reg2 5 2).1
    reg1.lobbies.lookup 5 = some l1 ∧
    reg2.lobbies.lookup 5 = some l2 ∧
    reg3.lobbies.lookup 5 = none ∧ reg3.join_codes.lookup 7 = none := by
  intro l0 reg0 reg1 l1 reg2 l2 reg3
  have h1 := leave_lobby_spec reg0 5 0 l0 rfl (by decide) (by decide)
  have h1a := (h1.2.1 rfl 1 [2] rfl).1
  have h2 := leave_lobby_spec reg1 5 1 l1 (by rw [show reg1 = (leave_lobby reg0 5 0).1 from rfl]; decide)
    (by decide) (by decide)
  have h2a := (h2.2.1 rfl 2 [] rfl).1
  have h3 := leave_lobby_spec reg2 5 2 l2 (by decide) (by decide) (by decide)
  have h3a := h3.2.2.1 rfl rfl
  exact ⟨h1a, h2a, h3a.1, h3a.2⟩

/-! ## Raycasts (backend/app/core/raycast.py `RaycastSystem._cast_ray`,
`_raycast_boundary`, `_raycast_obstacle`, `_raycast_car`,
`_ray_segment_intersection`; cars list assembled without the source
player in `BotManager._create_bot_game_state`) -/

/-- The kind of object a ray hit. -/
inductive HitKind
  | boundary
  | obstacle
  | car
deriving DecidableEq

/-- Embedding of `RaycastResult`. -/
structure MRaycastResult where
  distance : ℝ
  hit_type : Option HitKind
  hit_position : Option Vec2

/-- Embedding of `RaycastSystem._raycast_car` (cars are circles of the
hard-coded radius 10). -/
noncomputable def raycast_car (origin dir carPos : Vec2) (maxRange : ℝ) :
    Option MRaycastResult :=
  let to_car := carPos.sub origin
  let proj := to_car.dot dir
  if proj < 0 then none
  else
    let closest := origin.add (dir.scale proj)
    let dist_to_ray := (carPos.sub closest).magnitude
    if dist_to_ray > 10 then none
    else
      let chord := Real.sqrt (10 ^ 2 - dist_to_ray ^ 2)
      let hit := proj - chord
      if hit < 0 ∨ hit > maxRange then none
      else some ⟨hit, some HitKind.car, some (origin.add (dir.scale hit))⟩

/-- Embedding of `RaycastSystem._raycast_obstacle`. -/
noncomputable def raycast_obstacle (origin dir obsPos : Vec2) (radius maxRange : ℝ) :
    Option MRaycastResult :=
  let to_circle := obsPos.sub origin
  let proj := to_circle.dot dir
  if proj < 0 then none
  else
    let closest := origin.add (dir.scale proj)
    let dist_to_ray := (obsPos.sub closest).magnitude
    if dist_to_ray > radius then none
    else
      let chord := Real.sqrt (radius ^ 2 - dist_to_ray ^ 2)
      let hit := proj - chord
      if hit < 0 ∨ hit > maxRange then none
      else some ⟨hit, some HitKind.obstacle, some (origin.add (dir.scale hit))⟩

/-- Embedding of `RaycastSystem._ray_segment_intersection`. -/
noncomputable def ray_segment_intersection (origin dir p1 p2 : Vec2)
    (maxRange : ℝ) : Option (Vec2 × ℝ) :=
  let seg_dir := p2.sub p1
  let diff := p1.sub origin
  let cross_ray_seg := dir.x * seg_dir.y - dir.y * seg_dir.x
  if |cross_ray_seg| < 1 / 10 ^ 10 then none
  else
    let t := (diff.x * seg_dir.y - diff.y * seg_dir.x) / cross_ray_seg
    let s := (diff.x * dir.y - diff.y * dir.x) / cross_ray_seg
    if 0 ≤ t ∧ 0 ≤ s ∧ s ≤ 1 ∧ t ≤ maxRange then
      some (origin.add (dir.scale t), t)
    else none

/-- Consecutive segments of the concatenated containment point list
(`all_boundary_points` in the source). -/
def segmentsOf (points : List Vec2) : List (Vec2 × Vec2) :=
  points.zip points.tail

/-- Embedding of `RaycastSystem._raycast_boundary`: closest boundary
segment hit, if any. -/
noncomputable def raycast_boundary (origin dir : Vec2) (points : List Vec2)
    (maxRange : ℝ) : Option MRaycastResult :=
  (segmentsOf points).foldl
    (fun acc seg =>
      match ray_segment_intersection origin dir seg.1 seg.2 maxRange with
      | some ht =>
          let cur := match acc with
            | some r => r.distance
            | none => maxRange
          if ht.2 < cur then some ⟨ht.2, some HitKind.boundary, some ht.1⟩ else acc
      | none => acc)
    none

/-- The `closest_hit` update of `_cast_ray`: keep the nearer result. -/
noncomputable def upd (best : MRaycastResult) :
    Option MRaycastResult → MRaycastResult
  | some r => if r.distance < best.distance then r else best
  | none => best

open Classical in
/-- Embedding of `RaycastSystem._cast_ray`: the closest among boundary,
obstacle and car hits, starting from `maxRange`/no-hit; a car whose
position equals the source car's position is skipped. -/
noncomputable def cast_ray (origin dir : Vec2) (boundary_points : List Vec2)
    (obstacles : List (Vec2 × ℝ)) (cars : List Vec2) (source_pos : Vec2)
    (maxRange : ℝ) : MRaycastResult :=
  let best0 : MRaycastResult := ⟨maxRange, none, none⟩
  let best1 := upd best0 (raycast_boundary origin dir boundary_points maxRange)
  let best2 := obstacles.foldl
    (fun b o => upd b (raycast_obstacle origin dir o.1 o.2 maxRange)) best1
  cars.foldl
    (fun b c => if c = source_pos then b
      else upd b (raycast_car origin dir c maxRange)) best2

/-- The spec's reading of `_cast_ray`: the source car is excluded by
identity only, so every car handed to the ray (the list already excludes
the source player) is considered, co-located or not. -/
noncomputable def cast_ray_spec_version (origin dir : Vec2)
    (boundary_points : List Vec2) (obstacles : List (Vec2 × ℝ))
    (cars : List Vec2) (maxRange : ℝ) : MRaycastResult :=
  let best0 : MRaycastResult := ⟨maxRange, none, none⟩
  let best1 := upd best0 (raycast_boundary origin dir boundary_points maxRange)
  let best2 := obstacles.foldl
    (fun b o => upd b (raycast_obstacle origin dir o.1 o.2 maxRange)) best1
  cars.foldl (fun b c => upd b (raycast_car origin dir c maxRange)) best2

/-- A ray can never hit a car centered at its own origin: the chord math
yields the entry distance `-10 < 0`, which the source rejects. -/
theorem raycast_car_self (origin dir : Vec2) (maxRange : ℝ) :
    raycast_car origin dir origin maxRange = none := by
  have h100 : Real.sqrt ((10 : ℝ) ^ 2 - 0 ^ 2) = 10 := by
    rw [show (10 : ℝ) ^ 2 - 0 ^ 2 = 10 ^ 2 by norm_num]
    exact Real.sqrt_sq (by norm_num)
  have hproj : (origin.sub origin).dot dir = 0 := by
    simp [Vec2.sub, Vec2.dot]
  have hzero : origin.add (dir.scale (0 : ℝ)) = origin := by
    apply Vec2.ext_xy <;> simp [Vec2.add, Vec2.scale]
  have hd0 : (origin.sub origin).magnitude = 0 := by
    simp [Vec2.sub, Vec2.magnitude]
  unfold raycast_car
  simp only [hproj, hzero, hd0]
  rw [if_neg (by norm_num), if_neg (by norm_num), if_pos]
  left
  rw [h100]
  norm_num

theorem upd_none (b : MRaycastResult) : upd b none = b := rfl

theorem upd_some (b r : MRaycastResult) :
    upd b (some r) = if r.distance < b.distance then r else b := rfl

theorem upd_le (b : MRaycastResult) (h : Option MRaycastResult) :
    (upd b h).distance ≤ b.distance := by
  cases h with
  | none => exact le_refl _
  | some r =>
      rw [upd_some]
      by_cases hr : r.distance < b.distance
      · rw [if_pos hr]; exact le_of_lt hr
      · rw [if_neg hr]

theorem upd_le_some (b : MRaycastResult) (r : MRaycastResult) :
    (upd b (some r)).distance ≤ r.distance := by
  rw [upd_some]
  by_cases hr : r.distance < b.distance
  · rw [if_pos hr]
  · rw [if_neg hr]
    exact le_of_not_lt hr

theorem foldl_upd_le_init {α : Type} (f : α → Option MRaycastResult) :
    ∀ (l : List α) (b : MRaycastResult),
      (l.foldl (fun b x => upd b (f x)) b).distance ≤ b.distance
  | [], b => le_refl _
  | x :: rest, b => le_trans (foldl_upd_le_init f rest (upd b (f x))) (upd_le b (f x))

theorem foldl_upd_le_mem {α : Type} (f : α → Option MRaycastResult) :
    ∀ (l : List α) (b : MRaycastResult), ∀ x ∈ l, ∀ r, f x = some r →
      (l.foldl (fun b x => upd b (f x)) b).distance ≤ r.distance
  | [], b, x, hx, r, hr => absurd hx (List.not_mem_nil x)
  | y :: rest, b, x, hx, r, hr => by
      rw [List.foldl_cons]
      rcases List.mem_cons.mp hx with hx | hx
      · subst hx
        calc (List.foldl (fun b x => upd b (f x)) (upd b (f x)) rest).distance
            ≤ (upd b (f x)).distance := foldl_upd_le_init f rest _
          _ ≤ r.distance := by rw [hr]; exact upd_le_some b r
      · exact foldl_upd_le_mem f rest (upd b (f y)) x hx r hr

theorem foldl_upd_attained {α : Type} (f : α → Option MRaycastResult) :
    ∀ (l : List α) (b : MRaycastResult),
      (l.foldl (fun b x => upd b (f x)) b).distance = b.distance ∨
      ∃ x ∈ l, ∃ r, f x = some r ∧
        (l.foldl (fun b x => upd b (f x)) b).distance = r.distance
  | [], b => Or.inl rfl
  | y :: rest, b => by
      rcases foldl_upd_attained f rest (upd b (f y)) with h | ⟨x, hx, r, hr, hd⟩
      · cases hfy : f y with
        | none =>
            left
            rw [List.foldl_cons, h, hfy, upd_none]
        | some r =>
            by_cases hlt : r.distance < b.distance
            · right
              refine ⟨y, List.mem_cons_self y rest, r, hfy, ?_⟩
              rw [List.foldl_cons, h, hfy, upd_some, if_pos hlt]
            · left
              rw [List.foldl_cons, h, hfy, upd_some, if_neg hlt]
      · right
        exact ⟨x, List.mem_cons_of_mem y hx, r, hr, by rw [List.foldl_cons]; exact hd⟩

/-- C10.  With the ray cast from the source car's own position (as
`cast_all_rays` always does), the position-equality skip in `_cast_ray`
is observationally the identity-only exclusion the spec states: the
result equals that of considering every car in the list (a distinct
co-located car can never register, since a car centered at the ray
origin yields no hit), so no car in the list is ever excluded for any
other reason; the list itself omits exactly the source player.  The
reported distance is the minimum of `maxRange` and all boundary,
obstacle and car candidate distances, and is attained by one of them. -/
theorem cast_ray_source_exclusion_spec (origin dir : Vec2)
    (boundary_points : List Vec2) (obstacles : List (Vec2 × ℝ))
    (cars : List Vec2) (source_pos : Vec2) (maxRange : ℝ)
    (hsrc : source_pos = origin) :
    cast_ray origin dir boundary_points obstacles cars source_pos maxRange
      = cast_ray_spec_version origin dir boundary_points obstacles cars maxRange ∧
    (∀ c, c = origin → raycast_car origin dir c maxRange = none) ∧
    (cast_ray origin dir boundary_points obstacles cars source_pos
        maxRange).distance ≤ maxRange ∧
    (∀ r, raycast_boundary origin dir boundary_points maxRange = some r →
      (cast_ray origin dir boundary_points obstacles cars source_pos
        maxRange).distance ≤ r.distance) ∧
    (∀ o ∈ obstacles, ∀ r,
      raycast_obstacle origin dir o.1 o.2 maxRange = some r →
      (cast_ray origin dir boundary_points obstacles cars source_pos
        maxRange).distance ≤ r.distance) ∧
    (∀ c ∈ cars, ∀ r, raycast_car origin dir c maxRange = some r →
      (cast_ray origin dir boundary_points obstacles cars source_pos
        maxRange).distance ≤ r.distance) ∧
    ((cast_ray origin dir boundary_points obstacles cars source_pos
        maxRange).distance = maxRange ∨
      (∃ r, raycast_boundary origin dir boundary_points maxRange = some r ∧
        (cast_ray origin dir boundary_points obstacles cars source_pos
          maxRange).distance = r.distance) ∨
      (∃ o ∈ obstacles, ∃ r,
        raycast_obstacle origin dir o.1 o.2 maxRange = some r ∧
        (cast_ray origin dir boundary_points obstacles cars source_pos
          maxRange).distance = r.distance) ∨
      (∃ c ∈ cars, ∃ r, raycast_car origin dir c maxRange = some r ∧
        (cast_ray origin dir boundary_points obstacles cars source_pos
          maxRange).distance = r.distance)) := by
  classical
  subst source_pos
  have hcarfold : ∀ (l : List Vec2) (b : MRaycastResult),
      l.foldl (fun b c => if c = origin then b
        else upd b (raycast_car origin dir c maxRange)) b
      = l.foldl (fun b c => upd b (raycast_car origin dir c maxRange)) b := by
    intro l
    induction l with
    | nil => intro b; rfl
    | cons c rest ih =>
        intro b
        rw [List.foldl_cons, List.foldl_cons]
        by_cases hc : c = origin
        · rw [if_pos hc, hc, raycast_car_self, upd_none]
          exact ih b
        · rw [if_neg hc]
          exact ih _
  have hequiv : cast_ray origin dir boundary_points obstacles cars origin maxRange
      = cast_ray_spec_version origin dir boundary_points obstacles cars maxRange := by
    unfold cast_ray cast_ray_spec_version
    exact hcarfold cars _
  set best1 := upd ⟨maxRange, none, none⟩
    (raycast_boundary origin dir boundary_points maxRange) with hbest1
  set best2 := obstacles.foldl
    (fun b o => upd b (raycast_obstacle origin dir o.1 o.2 maxRange)) best1
    with hbest2
  have hres : cast_ray origin dir boundary_points obstacles cars origin maxRange
      = cars.foldl (fun b c => upd b (raycast_car origin dir c maxRange)) best2 := by
    rw [hequiv]
    rfl
  have hb2le : best2.distance ≤ best1.distance := foldl_upd_le_init _ obstacles best1
  have hb1le : best1.distance ≤ maxRange := upd_le _ _
  refine ⟨hequiv, fun c hc => by rw [hc]; exact raycast_car_self origin dir maxRange,
    ?_, ?_, ?_, ?_, ?_⟩
  · rw [hres]
    exact le_trans (foldl_upd_le_init _ cars best2) (le_trans hb2le hb1le)
  · intro r hr
    rw [hres]
    have : best1.distance ≤ r.distance := by
      rw [hbest1, hr]
      exact upd_le_some _ r
    exact le_trans (foldl_upd_le_init _ cars best2) (le_trans hb2le this)
  · intro o ho r hr
    rw [hres]
    exact le_trans (foldl_upd_le_init _ cars best2)
      (foldl_upd_le_mem _ obstacles best1 o ho r hr)
  · intro c hc r hr
    rw [hres]
    exact foldl_upd_le_mem _ cars best2 c hc r hr
  · rw [hres]
    rcases foldl_upd_attained
        (fun c => raycast_car origin dir c maxRange) cars best2 with hc | hcar
    · have hc2 : (cars.foldl
          (fun b c => upd b (raycast_car origin dir c maxRange)) best2).distance
          = best2.distance := hc
      rw [hc2]
      rcases foldl_upd_attained
          (fun o => raycast_obstacle origin dir o.1 o.2 maxRange) obstacles best1
        with ho | ⟨o, ho, r, hor, hod⟩
      · have ho2 : best2.distance = best1.distance := ho
        rw [ho2]
        cases hb : raycast_boundary origin dir boundary_points maxRange with
        | none =>
            left
            rw [hbest1, hb, upd_none]
        | some r =>
            rw [hbest1, hb, upd_some]
            by_cases hlt : r.distance
                < (⟨maxRange, none, none⟩ : MRaycastResult).distance
            · right; left
              exact ⟨r, rfl, by rw [if_pos hlt]⟩
            · left
              rw [if_neg hlt]
      · right; right; left
        have hod2 : best2.distance = r.distance := hod
        exact ⟨o, ho, r, hor, hod2⟩
    · right; right; right
      obtain ⟨c, hcmem, r, hr, hd⟩ := hcar
      have hd2 : (cars.foldl
          (fun b c => upd b (raycast_car origin dir c maxRange)) best2).distance
          = r.distance := hd
      exact ⟨c, hcmem, r, hr, hd2⟩

/-- Witness for `cast_ray_source_exclusion_spec`: a ray along `+x` from a
car at the origin, a distinct car exactly co-located with it and another
at `(50, 0)` in the list, no boundary and no obstacles. -/
theorem cast_ray_source_exclusion_spec_witness :
    cast_ray ⟨0, 0⟩ ⟨1, 0⟩ [] [] [⟨0, 0⟩, ⟨50, 0⟩] ⟨0, 0⟩ 200
      = cast_ray_spec_version ⟨0, 0⟩ ⟨1, 0⟩ [] [] [⟨0, 0⟩, ⟨50, 0⟩] 200 ∧
    (∀ c, c = (⟨0, 0⟩ : Vec2) →
      raycast_car ⟨0, 0⟩ ⟨1, 0⟩ c 200 = none) :=
  ⟨(cast_ray_source_exclusion_spec ⟨0, 0⟩ ⟨1, 0⟩ [] [] [⟨0, 0⟩, ⟨50, 0⟩]
      ⟨0, 0⟩ 200 rfl).1,
   (cast_ray_source_exclusion_spec ⟨0, 0⟩ ⟨1, 0⟩ [] [] [⟨0, 0⟩, ⟨50, 0⟩]
      ⟨0, 0⟩ 200 rfl).2.1⟩

end CodeRally
